import Mathlib

/-!
Verification of the eglob library: a shallow embedding of the segment
compiler (`SegmentPattern.glob_to_regex`, which builds a regular-expression
string from a glob segment) and of the directory-tree walker
(`glob1` / `iglob`), together with a model of the fragment of the host
regex engine that the compiler targets (compilation of the produced
regex string to an automaton, and anchored matching).

Pattern text is modelled as `List Char`; the regex string produced by the
compiler is likewise a `List Char`, exactly as the Python code builds it.
The host regex engine (Python's `re` module) is modelled by `reParse`
(compilation of the produced string, which can fail, as `re.compile` can)
and a Brzozowski-derivative matcher over the resulting syntax tree.
-/

namespace Eglob

/-- Errors of the modelled host regex engine (Python `re.compile`). -/
inductive ReErr where
  | unterminatedClass
  | badEscape
  | badCharacterRange
  | nothingToRepeat
  | multipleRepeat
  | unbalancedParen
  | unsupported
  | bound
  deriving DecidableEq, Repr

/-- Errors raised while compiling a glob segment.
`invalidPattern` and `invalidSegmentCharacters` model the two reachable
`ValueError`s of `glob_to_regex` (each carrying the offending remaining
text); `indexError` models the out-of-range list access
`pattern_block[1]` in the end-of-input branch of `parse_range`;
`reError` wraps a failure of the host regex engine when the produced
regex string is compiled.  `bound` marks recursion-bound guards inserted
for termination; it is never actually produced (the guarded quantities
always shrink), as the progress lemmas below establish on every path the
theorems exercise. -/
inductive CompileErr where
  | invalidPattern (text : List Char)
  | invalidSegmentCharacters (text : List Char)
  | indexError
  | reError (e : ReErr)
  | bound
  deriving DecidableEq, Repr

/-- The reserved glob-control characters, `GLOB_CHARACTERS = "*?{}[]!,/\\"`. -/
def GLOB_CHARACTERS : List Char := ['*', '?', '{', '}', '[', ']', '!', ',', '/', '\\']

/-- Test for membership in `GLOB_CHARACTERS`. -/
def isGlobChar (c : Char) : Bool := GLOB_CHARACTERS.contains c

/-- The characters Python's `re.escape` prefixes with a backslash
(the regex metacharacters plus ASCII whitespace). -/
def RE_SPECIAL : List Char :=
  ['(', ')', '[', ']', '{', '}', '?', '*', '+', '-', '|', '^', '$', '\\', '.',
   '&', '~', '#', ' ', '\t', '\n', '\r', '\x0b', '\x0c']

/-- Escaping of one character, as Python's `re.escape` does it. -/
def reEscapeChar (c : Char) : List Char :=
  if RE_SPECIAL.contains c then ['\\', c] else [c]

/-- Model of Python's `re.escape` on a run of characters. -/
def reEscape (s : List Char) : List Char := s.flatMap reEscapeChar

/-- The regex fragment `glob_to_regex` appends for a `*`:
`f"[^{escaped_glob_chars}]+"`. -/
def starBlock : List Char := '[' :: '^' :: reEscape GLOB_CHARACTERS ++ [']', '+']

/-- The regex fragment `glob_to_regex` appends for a `?`:
`f"[^{escaped_glob_chars}]{{1}}"`. -/
def qmarkBlock : List Char :=
  '[' :: '^' :: reEscape GLOB_CHARACTERS ++ [']', '{', '1', '}']

/-- The inner `parse_inline` of `glob_to_regex`: consumes a maximal run of
`*`, `?` and literal (non-glob-control) characters, returning the regex
fragment built for the run and the unconsumed remainder of the text.  It
stops (returning what it has so far) at end of input or at any other
glob-control character. -/
def parse_inline (text : List Char) : List Char × List Char :=
  match text with
  | [] => ([], [])
  | c :: rest =>
    if c = '*' then
      let (f, r) := parse_inline rest
      (starBlock ++ f, r)
    else if c = '?' then
      let (f, r) := parse_inline rest
      (qmarkBlock ++ f, r)
    else if isGlobChar c then ([], c :: rest)
    else
      let run := (c :: rest).takeWhile (fun ch => !isGlobChar ch)
      if h : ((c :: rest).dropWhile (fun ch => !isGlobChar ch)).length < (c :: rest).length then
        let (f, r) := parse_inline ((c :: rest).dropWhile (fun ch => !isGlobChar ch))
        (reEscape run ++ f, r)
      else ([], c :: rest)
  termination_by text.length
  decreasing_by all_goals simp only [List.length_cons] at * <;> omega

/-- The loop of the inner `parse_range` of `glob_to_regex`, carrying the
accumulated `pattern_block` list.  On end of input it mirrors the code's
recovery: it inspects `pattern_block[1]` (an out-of-range access when fewer
than two blocks were accumulated, modelled by `indexError`), reverting a
negation marker `^` back to `!`, and returns the unclosed accumulated text.
A `[` opens (appending `[`, and `^` if a `!` follows immediately), a `]`
closes and returns, and any other character starts a run of non-bracket
characters copied through verbatim. -/
def parse_range_loop (text : List Char) (blocks : List (List Char)) :
    Except CompileErr (List Char × List Char) :=
  match text with
  | [] =>
    match blocks[1]? with
    | none => .error .indexError
    | some b =>
      let blocks1 := if b = ['^'] then blocks.set 1 ['!'] else blocks
      .ok (blocks1.flatten, [])
  | '[' :: '!' :: rest2 => parse_range_loop rest2 (blocks ++ [['['], ['^']])
  | '[' :: rest => parse_range_loop rest (blocks ++ [['[']])
  | c :: rest =>
    if c = ']' then .ok ((blocks ++ [[']']]).flatten, rest)
    else
      let run := (c :: rest).takeWhile (fun ch => !(ch = '[' || ch = ']'))
      if h : ((c :: rest).dropWhile (fun ch => !(ch = '[' || ch = ']'))).length
          < (c :: rest).length then
        parse_range_loop ((c :: rest).dropWhile (fun ch => !(ch = '[' || ch = ']')))
          (blocks ++ [run])
      else .error .bound
  termination_by text.length
  decreasing_by all_goals simp only [List.length_cons] at * <;> omega

/-- The inner `parse_range` of `glob_to_regex`, entered with the opening
`[` still unconsumed. -/
def parse_range (text : List Char) : Except CompileErr (List Char × List Char) :=
  parse_range_loop text []

/-- The `pattern_block[-1] = pattern_block[-1] + text` update of
`parse_subpattern`, with its `except IndexError: pattern_block = [text]`
fallback for an empty block list. -/
def appendToLast : List (List Char) → List Char → List (List Char)
  | [], t => [t]
  | [b], t => [b ++ t]
  | b :: bs, t => b :: appendToLast bs t

/-- The loop of the inner `parse_subpattern` of `glob_to_regex`, carrying
the accumulated `pattern_block` list and the `enter_scope` flag.  On end of
input it returns `"{" + ",".join(pattern_block)` unclosed; a `{` either
merely sets `enter_scope` (the first time) or recursively parses a nested
sub-pattern followed by inline text; a `,` is skipped; a `}` closes,
returning `"(?:" + "|".join(pattern_block) + ")"`; a `[` parses a range
followed by inline text; anything else must start a non-empty inline run,
else the "invalid segment characters" error is raised. -/
def parse_subpattern_loop (text : List Char) (blocks : List (List Char))
    (enterScope : Bool) : Except CompileErr (List Char × List Char) :=
  match text with
  | [] => .ok ('{' :: List.intercalate [','] blocks, [])
  | c :: rest =>
    if c = '{' then
      if enterScope then
        match parse_subpattern_loop rest [] false with
        | .error e => .error e
        | .ok (sub, r1) =>
          let (inl, r2) := parse_inline r1
          if h : r2.length < (c :: rest).length then
            parse_subpattern_loop r2 (appendToLast blocks (sub ++ inl)) true
          else .error .bound
      else parse_subpattern_loop rest blocks true
    else if c = ',' then parse_subpattern_loop rest blocks enterScope
    else if c = '}' then
      .ok ('(' :: '?' :: ':' :: List.intercalate ['|'] blocks ++ [')'], rest)
    else if c = '[' then
      match parse_range (c :: rest) with
      | .error e => .error e
      | .ok (rng, r1) =>
        let (inl, r2) := parse_inline r1
        if h : r2.length < (c :: rest).length then
          parse_subpattern_loop r2 (appendToLast blocks (rng ++ inl)) enterScope
        else .error .bound
    else
      let (inl, r) := parse_inline (c :: rest)
      if inl = [] then .error (.invalidSegmentCharacters (c :: rest))
      else if h : r.length < (c :: rest).length then
        parse_subpattern_loop r (blocks ++ [inl]) enterScope
      else .error .bound
  termination_by text.length
  decreasing_by all_goals simp only [List.length_cons] at * <;> omega

/-- The inner `parse_subpattern` of `glob_to_regex`, entered with the
opening `{` still unconsumed (its loop consumes it on the first
iteration, since `enter_scope` starts out false). -/
def parse_subpattern (text : List Char) : Except CompileErr (List Char × List Char) :=
  parse_subpattern_loop text [] false

/-- The top-level loop of `glob_to_regex`.  `total` is the length of the
whole pattern, so `total - text.length` is the value of the code's
`offset` variable when the current slice is `text`.  A leading `**` emits
`.*` and stops; the code then tests `text[offset:]` — an index into the
current *slice* with the already-advanced absolute offset — and raises
"invalid pattern" when that is non-empty, which for a slice starting at
`offset` means `rest.drop offset` is non-empty.  A `{` hands over to
`parse_subpattern`, a `[` to `parse_range`, and anything else must start a
non-empty inline run, else the "invalid segment characters" error is
raised. -/
def glob_loop (total : Nat) (text : List Char) (acc : List Char) :
    Except CompileErr (List Char) :=
  match text with
  | [] => .ok acc
  | '*' :: '*' :: rest =>
    if rest.drop (total - ('*' :: '*' :: rest).length) ≠ [] then
      .error (.invalidPattern ('*' :: '*' :: rest))
    else .ok (acc ++ ['.', '*'])
  | c :: rest =>
    if c = '{' then
      match parse_subpattern (c :: rest) with
      | .error e => .error e
      | .ok (sub, r) =>
        if h : r.length < (c :: rest).length then glob_loop total r (acc ++ sub)
        else .error .bound
    else if c = '[' then
      match parse_range (c :: rest) with
      | .error e => .error e
      | .ok (sub, r) =>
        if h : r.length < (c :: rest).length then glob_loop total r (acc ++ sub)
        else .error .bound
    else
      let (inl, r) := parse_inline (c :: rest)
      if inl = [] then .error (.invalidSegmentCharacters (c :: rest))
      else if h : r.length < (c :: rest).length then glob_loop total r (acc ++ inl)
      else .error .bound
  termination_by text.length
  decreasing_by all_goals simp only [List.length_cons] at * <;> omega

/-- `SegmentPattern.glob_to_regex`: convert one glob segment to a regular
expression string. -/
def glob_to_regex (pattern : List Char) : Except CompileErr (List Char) :=
  glob_loop pattern.length pattern []

/-- One element of a regex character class: a single character or an
inclusive character range. -/
inductive ClassItem where
  | single (c : Char)
  | range (lo hi : Char)
  deriving DecidableEq, Repr

/-- Abstract syntax of the regex fragment the segment compiler emits:
literals, the any-character dot, character classes, concatenation,
alternation and Kleene star (plus `+` and counted repetition, desugared
into these). -/
inductive Regex where
  | emp
  | eps
  | lit (c : Char)
  | dot
  | cls (neg : Bool) (items : List ClassItem)
  | seq (a b : Regex)
  | alt (a b : Regex)
  | star (a : Regex)
  deriving DecidableEq, Repr

/-- Whether one class element admits a character. -/
def ClassItem.test : ClassItem → Char → Bool
  | .single d, c => c = d
  | .range lo hi, c => lo ≤ c && c ≤ hi

/-- Whether a (possibly negated) character class admits a character. -/
def clsTest (neg : Bool) (items : List ClassItem) (c : Char) : Bool :=
  let m := items.any (·.test c)
  if neg then !m else m

/-- Whether a regex accepts the empty string. -/
def Regex.nullable : Regex → Bool
  | .emp => false
  | .eps => true
  | .lit _ => false
  | .dot => false
  | .cls _ _ => false
  | .seq a b => a.nullable && b.nullable
  | .alt a b => a.nullable || b.nullable
  | .star _ => true

/-- Brzozowski derivative of a regex by one character.  The dot matches
any character except a newline, as the host engine's `.` does without the
dot-all flag. -/
def Regex.deriv : Regex → Char → Regex
  | .emp, _ => .emp
  | .eps, _ => .emp
  | .lit d, c => if c = d then .eps else .emp
  | .dot, c => if c = '\n' then .emp else .eps
  | .cls neg items, c => if clsTest neg items c then .eps else .emp
  | .seq a b, c =>
    if a.nullable then .alt (.seq (a.deriv c) b) (b.deriv c)
    else .seq (a.deriv c) b
  | .alt a b, c => .alt (a.deriv c) (b.deriv c)
  | .star a, c => .seq (a.deriv c) (.star a)

/-- Whether a regex matches a whole character list. -/
def Regex.fullmatch (r : Regex) (cs : List Char) : Bool :=
  (cs.foldl Regex.deriv r).nullable

/-- n-fold concatenation of a regex with itself. -/
def Regex.pow (r : Regex) : Nat → Regex
  | 0 => .eps
  | n + 1 => .seq r (Regex.pow r n)

/-- Up to n repetitions of a regex. -/
def Regex.upTo (r : Regex) : Nat → Regex
  | 0 => .eps
  | n + 1 => .seq (.alt .eps r) (Regex.upTo r n)

/-- Body of a character class, parsed as the host engine does: a `]` in
first position is an ordinary member, a `\` escapes the next character,
`a-b` between two members is a range (rejected when descending), a `-`
just before the closing `]` is an ordinary member, and running out of
input before the closing `]` is the "unterminated character set" error. -/
def parse_class_loop (l : List Char) (first : Bool) (acc : List ClassItem) :
    Except ReErr (List ClassItem × List Char) :=
  match l with
  | [] => .error .unterminatedClass
  | '\\' :: [] => .error .badEscape
  | '\\' :: d :: rest =>
    match rest with
    | '-' :: ']' :: rest2 => .ok (acc ++ [.single d, .single '-'], rest2)
    | '-' :: '\\' :: [] => .error .badEscape
    | '-' :: '\\' :: e :: rest2 =>
      if d ≤ e then parse_class_loop rest2 false (acc ++ [.range d e])
      else .error .badCharacterRange
    | '-' :: [] => .error .unterminatedClass
    | '-' :: e :: rest2 =>
      if e = ']' then .ok (acc ++ [.single d, .single '-'], rest2)
      else if d ≤ e then parse_class_loop rest2 false (acc ++ [.range d e])
      else .error .badCharacterRange
    | r0 =>
      if h : r0.length < ('\\' :: d :: rest).length then
        parse_class_loop r0 false (acc ++ [.single d])
      else .error .bound
  | c :: rest =>
    if c = ']' && !first then .ok (acc, rest)
    else
      match rest with
      | '-' :: ']' :: rest2 => .ok (acc ++ [.single c, .single '-'], rest2)
      | '-' :: '\\' :: [] => .error .badEscape
      | '-' :: '\\' :: e :: rest2 =>
        if c ≤ e then parse_class_loop rest2 false (acc ++ [.range c e])
        else .error .badCharacterRange
      | '-' :: [] => .error .unterminatedClass
      | '-' :: e :: rest2 =>
        if e = ']' then .ok (acc ++ [.single c, .single '-'], rest2)
        else if c ≤ e then parse_class_loop rest2 false (acc ++ [.range c e])
        else .error .badCharacterRange
      | r0 =>
        if h : r0.length < (c :: rest).length then
          parse_class_loop r0 false (acc ++ [.single c])
        else .error .bound
  termination_by l.length
  decreasing_by all_goals simp only [List.length_cons] at * <;> omega

/-- Attempt to read a counted repetition `{m}`, `{m,n}`, `{m,}` or `{,n}`
starting just after the `{`.  Returns the bounds and the remainder on
success; `none` means the brace does not form a quantifier and is to be
taken literally, as the host engine does. -/
def tryQuant (l : List Char) : Option ((Nat × Option Nat) × List Char) :=
  let ds1 := l.takeWhile Char.isDigit
  let r1 := l.dropWhile Char.isDigit
  match r1 with
  | '}' :: rest =>
    if ds1 = [] then none
    else some ((String.toNat! ⟨ds1⟩, some (String.toNat! ⟨ds1⟩)), rest)
  | ',' :: r2 =>
    let ds2 := r2.takeWhile Char.isDigit
    let r3 := r2.dropWhile Char.isDigit
    match r3 with
    | '}' :: rest =>
      if ds1 = [] && ds2 = [] then none
      else
        some ((if ds1 = [] then 0 else String.toNat! ⟨ds1⟩,
               if ds2 = [] then none else some (String.toNat! ⟨ds2⟩)), rest)
    | _ => none
  | _ => none

/-- Apply a counted repetition to a regex. -/
def applyRep (r : Regex) (m : Nat) : Option Nat → Except ReErr Regex
  | none => .ok (.seq (r.pow m) (.star r))
  | some n => if n < m then .error .unsupported else .ok (.seq (r.pow m) (r.upTo (n - m)))

/-- Rejection of a quantifier immediately following another quantifier
("multiple repeat" in the host engine); a single `?` after a quantifier
is the lazy modifier, irrelevant to whole-string matching, and is
consumed. -/
def checkDouble (r : Regex) (l : List Char) : Except ReErr (Regex × List Char) :=
  match l with
  | '*' :: _ => .error .multipleRepeat
  | '+' :: _ => .error .multipleRepeat
  | '?' :: rest => .ok (r, rest)
  | '{' :: rest =>
    match tryQuant rest with
    | some _ => .error .multipleRepeat
    | none => .ok (r, '{' :: rest)
  | _ => .ok (r, l)

/-- Apply an optional postfix quantifier (`*`, `+`, `?` or a counted
repetition) to a freshly parsed atom. -/
def applyQuant (r : Regex) (l : List Char) : Except ReErr (Regex × List Char) :=
  match l with
  | '*' :: rest => checkDouble (.star r) rest
  | '+' :: rest => checkDouble (.seq r (.star r)) rest
  | '?' :: rest => checkDouble (.alt .eps r) rest
  | '{' :: rest =>
    match tryQuant rest with
    | some ((m, n), rest2) =>
      match applyRep r m n with
      | .error e => .error e
      | .ok r2 => checkDouble r2 rest2
    | none => .ok (r, '{' :: rest)
  | _ => .ok (r, l)

mutual

/-- One alternation-free run of quantified atoms of the host regex
grammar, stopping at end of input, `|` or `)`. -/
def parseSeq (l : List Char) (acc : Regex) : Except ReErr (Regex × List Char) :=
  match l with
  | [] => .ok (acc, [])
  | '(' :: '?' :: ':' :: rest =>
    match parseAlt rest with
    | .error e => .error e
    | .ok (body, r2) =>
      match r2 with
      | ')' :: r3 =>
        match applyQuant body r3 with
        | .error e => .error e
        | .ok (atom, r4) =>
          if h : r4.length < ('(' :: '?' :: ':' :: rest).length then
            parseSeq r4 (.seq acc atom)
          else .error .bound
      | _ => .error .unbalancedParen
  | '(' :: rest =>
    match parseAlt rest with
    | .error e => .error e
    | .ok (body, r2) =>
      match r2 with
      | ')' :: r3 =>
        match applyQuant body r3 with
        | .error e => .error e
        | .ok (atom, r4) =>
          if h : r4.length < ('(' :: rest).length then
            parseSeq r4 (.seq acc atom)
          else .error .bound
      | _ => .error .unbalancedParen
  | '[' :: '^' :: rest =>
    match parse_class_loop rest true [] with
    | .error e => .error e
    | .ok (items, r2) =>
      match applyQuant (.cls true items) r2 with
      | .error e => .error e
      | .ok (atom, r4) =>
        if h : r4.length < ('[' :: '^' :: rest).length then
          parseSeq r4 (.seq acc atom)
        else .error .bound
  | '[' :: rest =>
    match parse_class_loop rest true [] with
    | .error e => .error e
    | .ok (items, r2) =>
      match applyQuant (.cls false items) r2 with
      | .error e => .error e
      | .ok (atom, r4) =>
        if h : r4.length < ('[' :: rest).length then
          parseSeq r4 (.seq acc atom)
        else .error .bound
  | '\\' :: [] => .error .badEscape
  | '\\' :: d :: rest =>
    match applyQuant (.lit d) rest with
    | .error e => .error e
    | .ok (atom, r4) =>
      if h : r4.length < ('\\' :: d :: rest).length then
        parseSeq r4 (.seq acc atom)
      else .error .bound
  | c :: rest =>
    if c = '|' || c = ')' then .ok (acc, c :: rest)
    else if c = '*' || c = '+' || c = '?' then .error .nothingToRepeat
    else if c = '^' || c = '$' then .error .unsupported
    else if c = '.' then
      match applyQuant .dot rest with
      | .error e => .error e
      | .ok (atom, r4) =>
        if h : r4.length < (c :: rest).length then parseSeq r4 (.seq acc atom)
        else .error .bound
    else if c = '{' then
      match tryQuant rest with
      | some _ => .error .nothingToRepeat
      | none =>
        match applyQuant (.lit '{') rest with
        | .error e => .error e
        | .ok (atom, r4) =>
          if h : r4.length < (c :: rest).length then parseSeq r4 (.seq acc atom)
          else .error .bound
    else
      match applyQuant (.lit c) rest with
      | .error e => .error e
      | .ok (atom, r4) =>
        if h : r4.length < (c :: rest).length then parseSeq r4 (.seq acc atom)
        else .error .bound
  termination_by (l.length, 0)
  decreasing_by all_goals simp only [List.length_cons] at * <;> first
    | exact Prod.Lex.left _ _ (by omega)
    | exact Prod.Lex.right _ (by omega)

/-- Alternation level of the host regex grammar. -/
def parseAlt (l : List Char) : Except ReErr (Regex × List Char) :=
  match parseSeq l .eps with
  | .error e => .error e
  | .ok (r1, rest) =>
    match rest with
    | '|' :: rest2 =>
      if h : rest2.length < l.length then
        match parseAlt rest2 with
        | .error e => .error e
        | .ok (r2, rest3) => .ok (.alt r1 r2, rest3)
      else .error .bound
    | _ => .ok (r1, rest)
  termination_by (l.length, 1)
  decreasing_by all_goals first
    | exact Prod.Lex.left _ _ (by omega)
    | exact Prod.Lex.right _ (by omega)

end

/-- Model of host regex compilation on the regex string produced by
`glob_to_regex`: the whole string must parse as one alternation; a
leftover `)` is the "unbalanced parenthesis" error. -/
def reParse (l : List Char) : Except ReErr Regex :=
  match parseAlt l with
  | .error e => .error e
  | .ok (r, []) => .ok r
  | .ok (_, _ :: _) => .error .unbalancedParen

end Eglob



namespace Eglob

/-- A compiled path-segment pattern: the original glob text (kept by the
code for diagnostics and for recognizing the `**` sentinel) together with
the automaton compiled from the produced regex string. -/
structure SegmentPattern where
  pattern : String
  regex : Regex
  deriving DecidableEq, Repr

/-- `SegmentPattern.__init__` / `_compile_pattern`: run `glob_to_regex`,
then hand the produced string to the host regex engine (modelled by
`reParse`), anchored on both sides. -/
def SegmentPattern.compile (p : String) : Except CompileErr SegmentPattern :=
  match glob_to_regex p.toList with
  | .error e => .error e
  | .ok g =>
    match reParse g with
    | .error e => .error (.reError e)
    | .ok r => .ok ⟨p, r⟩

/-- `SegmentPattern.match`: anchored match of a segment name.  The host
pattern is `"^" + regex + "$"`, and the host's `$` also matches just
before a single newline at the very end of the string, so a trailing
newline may be left unconsumed. -/
def SegmentPattern.match (sp : SegmentPattern) (s : String) : Bool :=
  sp.regex.fullmatch s.toList ||
    (if s.toList.getLast? = some '\n' then sp.regex.fullmatch s.toList.dropLast
     else false)

/-- Compile a segment and match a name with it: `some b` when compilation
succeeds and matching returns `b`, `none` when compilation fails. -/
def segMatch (p s : String) : Option Bool :=
  (SegmentPattern.compile p).toOption.map (·.match s)

/-- A directory entry of the modelled file system: a file, or a directory
with its own listing.  `os.listdir` order is the list order. -/
inductive FsEntry where
  | file (name : String)
  | dir (name : String) (entries : List FsEntry)

/-- The name of an entry. -/
def FsEntry.name : FsEntry → String
  | .file n => n
  | .dir n _ => n

/-- A matcher-sequence element: the code distinguishes `DirectorySegment`
and `FileSegment` subclasses of `SegmentPattern` by `isinstance`. -/
inductive Segment where
  | directorySegment (p : SegmentPattern)
  | fileSegment (p : SegmentPattern)
  deriving DecidableEq, Repr

/-- The underlying compiled pattern of a matcher-sequence element. -/
def Segment.pat : Segment → SegmentPattern
  | .directorySegment p => p
  | .fileSegment p => p

/-- The walker's failure: the out-of-range accesses `segments[0]` (when
the sequence is empty and the directory has at least one entry) and
`segments[1]` (in the zero-level `**` case when only one matcher
remains). -/
inductive WalkErr where
  | indexError
  deriving DecidableEq, Repr

/-- The tree walker `glob1`: iterate the listing of `root_path`; when the
head matcher is a directory segment, recurse into each matching directory
entry with the remaining matchers, and — only when the head's original
text is exactly `**` — yield directly each non-directory entry whose name
matches `segments[1]`; when the head matcher is a file segment, yield
each file entry whose name matches it. -/
def glob1 (entries : List FsEntry) (root_path : String) (segments : List Segment) :
    Except WalkErr (List String) :=
  match entries with
  | [] => .ok []
  | e :: es =>
    match segments with
    | [] => .error .indexError
    | s0 :: rest =>
      match s0 with
      | .directorySegment p0 =>
        match e with
        | .dir name children =>
          if p0.match name then
            match glob1 children (root_path ++ "/" ++ name) rest with
            | .error err => .error err
            | .ok l1 =>
              match glob1 es root_path segments with
              | .error err => .error err
              | .ok l2 => .ok (l1 ++ l2)
          else glob1 es root_path segments
        | .file name =>
          if p0.pattern = "**" then
            match rest.head? with
            | none => .error .indexError
            | some s1 =>
              if s1.pat.match name then
                match glob1 es root_path segments with
                | .error err => .error err
                | .ok l2 => .ok ((root_path ++ "/" ++ name) :: l2)
              else glob1 es root_path segments
          else glob1 es root_path segments
      | .fileSegment p0 =>
        match e with
        | .file name =>
          if p0.match name then
            match glob1 es root_path segments with
            | .error err => .error err
            | .ok l2 => .ok ((root_path ++ "/" ++ name) :: l2)
          else glob1 es root_path segments
        | .dir _ _ => glob1 es root_path segments

/-- Failures of `iglob`: the "pattern empty" check, a segment-compilation
failure, or a walker failure. -/
inductive GlobErr where
  | emptyPattern
  | compile (e : CompileErr)
  | walk (e : WalkErr)
  deriving DecidableEq, Repr

/-- Python's `str.strip`: drop whitespace from both ends. -/
def pyStrip (l : List Char) : List Char :=
  ((l.dropWhile Char.isWhitespace).reverse.dropWhile Char.isWhitespace).reverse

/-- Python's `str.split` with a one-character separator: split on every
occurrence, keeping empty parts. -/
def splitChar (sep : Char) : List Char → List (List Char)
  | [] => [[]]
  | c :: rest =>
    let r := splitChar sep rest
    if c = sep then [] :: r
    else
      match r with
      | [] => [[c]]
      | h :: t => (c :: h) :: t

/-- The matcher sequence `iglob` builds: check the stripped pattern is
non-empty, normalize `\` to `/`, split on `/`, compile every component
but the last as a `DirectorySegment` and the last as a `FileSegment`. -/
def iglobSegments (pattern : String) : Except GlobErr (List Segment) :=
  let chars := pattern.toList
  if pyStrip chars = [] then .error .emptyPattern
  else
    let norm := chars.map (fun c => if c = '\\' then '/' else c)
    let parts := splitChar '/' norm
    let dirParts := parts.dropLast
    let filePart := parts.getLast?.getD []
    match dirParts.mapM (fun t => SegmentPattern.compile ⟨t⟩) with
    | .error e => .error (.compile e)
    | .ok dsegs =>
      match SegmentPattern.compile ⟨filePart⟩ with
      | .error e => .error (.compile e)
      | .ok fseg =>
        .ok (dsegs.map Segment.directorySegment ++ [Segment.fileSegment fseg])

/-- `iglob` (drained eagerly, as `glob` does): build the matcher sequence
and walk the given root listing with it. -/
def iglob (pattern : String) (entries : List FsEntry) (cwd : String) :
    Except GlobErr (List String) :=
  match iglobSegments pattern with
  | .error e => .error e
  | .ok segments =>
    match glob1 entries cwd segments with
    | .error e => .error (.walk e)
    | .ok l => .ok l

end Eglob

namespace Eglob

/-- The regex a run of literal characters compiles to, in the exact
left-nested shape `parseSeq` accumulates: `litFold acc [a, b] =
seq (seq acc (lit a)) (lit b)`. -/
def litFold (acc : Regex) (l : List Char) : Regex :=
  l.foldl (fun a c => .seq a (.lit c)) acc

/-- Denotational language of the regex syntax: the specification against
which the derivative matcher is proved correct. -/
inductive Lang : Regex → List Char → Prop where
  | eps : Lang .eps []
  | lit (c : Char) : Lang (.lit c) [c]
  | dot {c : Char} : c ≠ '\n' → Lang .dot [c]
  | cls {neg : Bool} {items : List ClassItem} {c : Char} :
      clsTest neg items c = true → Lang (.cls neg items) [c]
  | seq {a b : Regex} {u v : List Char} :
      Lang a u → Lang b v → Lang (.seq a b) (u ++ v)
  | altL {a b : Regex} {u : List Char} : Lang a u → Lang (.alt a b) u
  | altR {a b : Regex} {u : List Char} : Lang b u → Lang (.alt a b) u
  | starNil {a : Regex} : Lang (.star a) []
  | starCons {a : Regex} {u v : List Char} :
      Lang a u → Lang (.star a) v → Lang (.star a) (u ++ v)

/-- A point at which `parse_inline` stops and consumes nothing: end of
input, or a glob-control character other than `*` and `?`. -/
def InlineStop (r : List Char) : Prop :=
  r = [] ∨ ∃ c2 r2, r = c2 :: r2 ∧ isGlobChar c2 = true ∧ c2 ≠ '*' ∧ c2 ≠ '?'

/-- A list that does not begin with a postfix quantifier, so `applyQuant`
leaves the atom unchanged. -/
def QuantStop (l : List Char) : Prop :=
  l = [] ∨ ∃ c2 r2, l = c2 :: r2 ∧ c2 ≠ '*' ∧ c2 ≠ '+' ∧ c2 ≠ '?' ∧ c2 ≠ '{'

/-- A point at which `parseSeq` stops: end of input, an alternation bar
or a closing parenthesis. -/
def SeqStop (r : List Char) : Prop :=
  r = [] ∨ ∃ r2, r = '|' :: r2 ∨ r = ')' :: r2

end Eglob

namespace Eglob

theorem lang_emp {s : List Char} : ¬ Lang .emp s := by
  intro h; cases h

theorem lang_eps_iff {s : List Char} : Lang .eps s ↔ s = [] := by
  constructor
  · intro h; cases h; rfl
  · rintro rfl; exact .eps

theorem lang_lit_iff {c : Char} {s : List Char} : Lang (.lit c) s ↔ s = [c] := by
  constructor
  · intro h; cases h; rfl
  · rintro rfl; exact .lit c

theorem lang_dot_iff {s : List Char} : Lang .dot s ↔ ∃ c, c ≠ '\n' ∧ s = [c] := by
  constructor
  · intro h; cases h with | dot hc => exact ⟨_, hc, rfl⟩
  · rintro ⟨c, hc, rfl⟩; exact .dot hc

theorem lang_cls_iff {neg : Bool} {items : List ClassItem} {s : List Char} :
    Lang (.cls neg items) s ↔ ∃ c, clsTest neg items c = true ∧ s = [c] := by
  constructor
  · intro h; cases h with | cls hc => exact ⟨_, hc, rfl⟩
  · rintro ⟨c, hc, rfl⟩; exact .cls hc

theorem lang_seq_iff {a b : Regex} {s : List Char} :
    Lang (.seq a b) s ↔ ∃ u v, s = u ++ v ∧ Lang a u ∧ Lang b v := by
  constructor
  · intro h; cases h with | seq hu hv => exact ⟨_, _, rfl, hu, hv⟩
  · rintro ⟨u, v, rfl, hu, hv⟩; exact .seq hu hv

theorem lang_alt_iff {a b : Regex} {s : List Char} :
    Lang (.alt a b) s ↔ Lang a s ∨ Lang b s := by
  constructor
  · intro h; cases h with
    | altL h => exact Or.inl h
    | altR h => exact Or.inr h
  · rintro (h | h)
    · exact .altL h
    · exact .altR h

theorem nullable_iff (r : Regex) : r.nullable = true ↔ Lang r [] := by
  induction r with
  | emp => exact iff_of_false (by simp [Regex.nullable]) lang_emp
  | eps => exact iff_of_true rfl .eps
  | lit c => simp [Regex.nullable, lang_lit_iff]
  | dot => simp [Regex.nullable, lang_dot_iff]
  | cls neg items => simp [Regex.nullable, lang_cls_iff]
  | seq a b iha ihb =>
    simp only [Regex.nullable, Bool.and_eq_true, iha, ihb, lang_seq_iff]
    constructor
    · rintro ⟨ha, hb⟩; exact ⟨[], [], rfl, ha, hb⟩
    · rintro ⟨u, v, huv, hu, hv⟩
      obtain ⟨rfl, rfl⟩ := List.append_eq_nil.mp huv.symm
      exact ⟨hu, hv⟩
  | alt a b iha ihb =>
    simp only [Regex.nullable, Bool.or_eq_true, iha, ihb, lang_alt_iff]
  | star a ih =>
    exact iff_of_true rfl .starNil

theorem star_inv_aux : ∀ {r : Regex} {w : List Char}, Lang r w →
    ∀ (a : Regex) (c : Char) (s : List Char), r = .star a → w = c :: s →
      ∃ u v, s = u ++ v ∧ Lang a (c :: u) ∧ Lang (.star a) v := by
  intro r w h
  induction h with
  | eps => intro a c s hr hw; cases hr
  | lit _ => intro a c s hr hw; cases hr
  | dot _ => intro a c s hr hw; cases hr
  | cls _ => intro a c s hr hw; cases hr
  | seq _ _ _ _ => intro a c s hr hw; cases hr
  | altL _ _ => intro a c s hr hw; cases hr
  | altR _ _ => intro a c s hr hw; cases hr
  | starNil => intro a c s hr hw; cases hw
  | starCons hu hv ihu ihv =>
    rename_i a0 u v
    intro a c s hr hw
    cases hr
    cases u with
    | nil =>
      simp only [List.nil_append] at hw
      exact ihv a0 c s rfl hw
    | cons u0 u2 =>
      simp only [List.cons_append, List.cons.injEq] at hw
      obtain ⟨rfl, rfl⟩ := hw
      exact ⟨u2, v, rfl, hu, hv⟩

theorem deriv_iff (r : Regex) (c : Char) (s : List Char) :
    Lang (r.deriv c) s ↔ Lang r (c :: s) := by
  induction r generalizing s with
  | emp =>
    simp only [Regex.deriv]
    exact ⟨fun h => absurd h lang_emp, fun h => absurd h lang_emp⟩
  | eps =>
    simp only [Regex.deriv]
    constructor
    · intro h; exact absurd h lang_emp
    · intro h; rw [lang_eps_iff] at h; cases h
  | lit d =>
    simp only [Regex.deriv]
    split
    · rename_i hc
      subst hc
      simp [lang_eps_iff, lang_lit_iff]
    · rename_i hc
      refine iff_of_false lang_emp ?_
      intro h
      rw [lang_lit_iff] at h
      injection h with h1 _
      exact absurd h1 hc
  | dot =>
    simp only [Regex.deriv]
    split
    · rename_i hc
      refine iff_of_false lang_emp ?_
      intro h
      rw [lang_dot_iff] at h
      obtain ⟨d, hd, he⟩ := h
      injection he with h1 _
      exact absurd (h1 ▸ hc) hd
    · rename_i hc
      rw [lang_eps_iff, lang_dot_iff]
      simp only [List.cons.injEq]
      constructor
      · rintro rfl; exact ⟨c, hc, rfl, rfl⟩
      · rintro ⟨d, hd, rfl, hs⟩; exact hs
  | cls neg items =>
    simp only [Regex.deriv]
    split
    · rename_i hc
      rw [lang_eps_iff, lang_cls_iff]
      simp only [List.cons.injEq]
      constructor
      · rintro rfl; exact ⟨c, hc, rfl, rfl⟩
      · rintro ⟨d, hd, rfl, hs⟩; exact hs
    · rename_i hc
      refine iff_of_false lang_emp ?_
      intro h
      rw [lang_cls_iff] at h
      obtain ⟨d, hd, he⟩ := h
      injection he with h1 _
      exact absurd (h1 ▸ hd) hc
  | seq a b iha ihb =>
    simp only [Regex.deriv]
    by_cases hn : a.nullable = true
    · rw [if_pos hn]
      rw [lang_alt_iff, lang_seq_iff, lang_seq_iff]
      constructor
      · rintro (⟨u, v, rfl, hu, hv⟩ | hd)
        · rw [iha] at hu
          exact ⟨c :: u, v, rfl, hu, hv⟩
        · rw [ihb] at hd
          exact ⟨[], c :: s, rfl, (nullable_iff a).mp hn, hd⟩
      · rintro ⟨u, v, huv, hu, hv⟩
        cases u with
        | nil =>
          right
          rw [ihb]
          simp only [List.nil_append] at huv
          rw [huv]
          exact hv
        | cons u0 u2 =>
          left
          simp only [List.cons_append, List.cons.injEq] at huv
          obtain ⟨rfl, rfl⟩ := huv
          exact ⟨u2, v, rfl, (iha u2).mpr hu, hv⟩
    · rw [if_neg hn]
      rw [lang_seq_iff, lang_seq_iff]
      constructor
      · rintro ⟨u, v, rfl, hu, hv⟩
        rw [iha] at hu
        exact ⟨c :: u, v, rfl, hu, hv⟩
      · rintro ⟨u, v, huv, hu, hv⟩
        cases u with
        | nil =>
          exact absurd ((nullable_iff a).mpr hu) hn
        | cons u0 u2 =>
          simp only [List.cons_append, List.cons.injEq] at huv
          obtain ⟨rfl, rfl⟩ := huv
          exact ⟨u2, v, rfl, (iha u2).mpr hu, hv⟩
  | alt a b iha ihb =>
    simp only [Regex.deriv, lang_alt_iff, iha, ihb]
  | star a ih =>
    simp only [Regex.deriv]
    rw [lang_seq_iff]
    constructor
    · rintro ⟨u, v, rfl, hu, hv⟩
      rw [ih] at hu
      exact @Lang.starCons a (c :: u) v hu hv
    · intro h
      obtain ⟨u, v, rfl, hu, hv⟩ := star_inv_aux h a c _ rfl rfl
      exact ⟨u, v, rfl, (ih u).mpr hu, hv⟩

theorem fullmatch_iff (r : Regex) (s : List Char) :
    r.fullmatch s = true ↔ Lang r s := by
  induction s generalizing r with
  | nil => exact nullable_iff r
  | cons c s ih =>
    have hstep : Regex.fullmatch r (c :: s) = Regex.fullmatch (r.deriv c) s := rfl
    rw [hstep, ih, deriv_iff]

end Eglob

namespace Eglob

theorem litFold_lang (t : List Char) (acc : Regex) (s : List Char) :
    Lang (litFold acc t) s ↔ ∃ u, Lang acc u ∧ s = u ++ t := by
  induction t generalizing acc s with
  | nil => simp [litFold]
  | cons c t2 ih =>
    have hstep : litFold acc (c :: t2) = litFold (.seq acc (.lit c)) t2 := rfl
    rw [hstep, ih]
    constructor
    · rintro ⟨u, hu, rfl⟩
      rw [lang_seq_iff] at hu
      obtain ⟨u1, v, rfl, h1, h2⟩ := hu
      rw [lang_lit_iff] at h2
      subst h2
      exact ⟨u1, h1, by simp⟩
    · rintro ⟨u, hu, rfl⟩
      exact ⟨u ++ [c], lang_seq_iff.mpr ⟨u, [c], rfl, hu, lang_lit_iff.mpr rfl⟩, by simp⟩

theorem litFold_eps_lang (t s : List Char) : Lang (litFold .eps t) s ↔ s = t := by
  rw [litFold_lang]
  constructor
  · rintro ⟨u, hu, rfl⟩
    rw [lang_eps_iff] at hu
    simp [hu]
  · rintro rfl
    exact ⟨[], .eps, by simp⟩

theorem star_cls_lang (neg : Bool) (items : List ClassItem) (s : List Char) :
    Lang (.star (.cls neg items)) s ↔ ∀ c ∈ s, clsTest neg items c = true := by
  constructor
  · intro h
    induction s with
    | nil => intro c hc; cases hc
    | cons c s2 ih =>
      obtain ⟨u, v, hs, hu, hv⟩ := star_inv_aux h _ c _ rfl rfl
      rw [lang_cls_iff] at hu
      obtain ⟨d, hd, he⟩ := hu
      have hu0 : c = d ∧ u = [] := by
        constructor
        · exact (List.cons.injEq c u d []).mp he |>.1
        · exact (List.cons.injEq c u d []).mp he |>.2
      obtain ⟨rfl, rfl⟩ := hu0
      intro e he2
      rcases List.mem_cons.mp he2 with rfl | hmem
      · exact hd
      · simp only [List.nil_append] at hs
        exact ih (hs ▸ hv) e hmem
  · intro h
    induction s with
    | nil => exact .starNil
    | cons c s2 ih =>
      have hc : Lang (.cls neg items) [c] := .cls (h c (by simp))
      have hs2 : Lang (.star (.cls neg items)) s2 := ih (fun e he => h e (by simp [he]))
      exact @Lang.starCons (.cls neg items) [c] s2 hc hs2

theorem plus_cls_lang (neg : Bool) (items : List ClassItem) (s : List Char) :
    Lang (.seq (.cls neg items) (.star (.cls neg items))) s ↔
      (s ≠ [] ∧ ∀ c ∈ s, clsTest neg items c = true) := by
  rw [lang_seq_iff]
  constructor
  · rintro ⟨u, v, rfl, hu, hv⟩
    rw [lang_cls_iff] at hu
    obtain ⟨c, hc, rfl⟩ := hu
    rw [star_cls_lang] at hv
    refine ⟨by simp, ?_⟩
    intro e he
    rcases List.mem_cons.mp he with rfl | hmem
    · exact hc
    · exact hv e hmem
  · rintro ⟨hne, h⟩
    match s, hne with
    | c :: s2, _ =>
      refine ⟨[c], s2, rfl, .cls (h c (by simp)), ?_⟩
      rw [star_cls_lang]
      intro e he
      exact h e (by simp [he])

theorem match_eq_or (sp : SegmentPattern) (s : String) :
    sp.match s = true ↔
      (Lang sp.regex s.toList ∨ ∃ u, s.toList = u ++ ['\n'] ∧ Lang sp.regex u) := by
  simp only [SegmentPattern.match, Bool.or_eq_true, fullmatch_iff]
  constructor
  · rintro (h | h)
    · exact Or.inl h
    · right
      by_cases hg : s.toList.getLast? = some '\n'
      · rw [if_pos hg] at h
        obtain ⟨u, hu⟩ := List.getLast?_eq_some_iff.mp hg
        refine ⟨u, hu, ?_⟩
        simp only [fullmatch_iff] at h
        rwa [hu, List.dropLast_concat] at h
      · rw [if_neg hg] at h
        cases h
  · rintro (h | ⟨u, hu, h⟩)
    · exact Or.inl h
    · right
      have hg : s.toList.getLast? = some '\n' := by
        rw [hu]
        simp
      rw [hg, hu, List.dropLast_concat]
      simpa [fullmatch_iff] using h

theorem match_litFold (p : String) (t : List Char) (s : String) :
    (SegmentPattern.mk p (litFold .eps t)).match s = true ↔
      (s.toList = t ∨ s.toList = t ++ ['\n']) := by
  rw [match_eq_or]
  simp only [litFold_eps_lang]
  constructor
  · rintro (h | ⟨u, hu, rfl⟩)
    · exact Or.inl h
    · exact Or.inr hu
  · rintro (h | h)
    · exact Or.inl h
    · exact Or.inr ⟨t, h, rfl⟩

end Eglob

namespace Eglob

theorem ne_of_not_glob {c : Char} (h : ¬(isGlobChar c = true)) :
    c ≠ '*' ∧ c ≠ '?' ∧ c ≠ '{' ∧ c ≠ '}' ∧ c ≠ '[' ∧ c ≠ ']' ∧ c ≠ '!' ∧ c ≠ ',' := by
  refine ⟨?_, ?_, ?_, ?_, ?_, ?_, ?_, ?_⟩ <;> rintro rfl <;> exact h (by decide)

theorem takeWhile_app_stop (l r : List Char) (p : Char → Bool) (hl : ∀ c ∈ l, p c = true)
    (hr : r = [] ∨ ∃ c2 r2, r = c2 :: r2 ∧ p c2 = false) :
    (l ++ r).takeWhile p = l ∧ (l ++ r).dropWhile p = r := by
  induction l with
  | nil =>
    rcases hr with rfl | ⟨c2, r2, rfl, hc2⟩
    · simp
    · simp [List.takeWhile_cons, List.dropWhile_cons, hc2]
  | cons a l2 ih =>
    have ha := hl a (by simp)
    have hrec := ih (fun c hc => hl c (by simp [hc]))
    simp [List.takeWhile_cons, List.dropWhile_cons, ha, hrec.1, hrec.2]

theorem parse_inline_stop {r : List Char} (hr : InlineStop r) : parse_inline r = ([], r) := by
  rcases hr with rfl | ⟨c2, r2, rfl, hc2, hs, hq⟩
  · rw [parse_inline.eq_def]
  · rw [parse_inline.eq_def]
    simp [hs, hq, hc2]

theorem parse_inline_lit (l r : List Char) (hl : ∀ c ∈ l, ¬(isGlobChar c = true))
    (hne : l ≠ []) (hr : InlineStop r) :
    parse_inline (l ++ r) = (reEscape l, r) := by
  match l, hne with
  | c :: l2, _ =>
    have hc := hl c (by simp)
    obtain ⟨h1, h2, -⟩ := ne_of_not_glob hc
    have htw := takeWhile_app_stop (c :: l2) r (fun ch => !isGlobChar ch)
      (fun ch hch => by simp [hl ch hch])
      (by rcases hr with rfl | ⟨c2, r2, rfl, hc2, -⟩
          · exact Or.inl rfl
          · exact Or.inr ⟨c2, r2, rfl, by simp [hc2]⟩)
    have hlen : ((c :: l2 ++ r).dropWhile (fun ch => !isGlobChar ch)).length
        < (c :: l2 ++ r).length := by
      rw [show ((c :: l2) ++ r) = c :: (l2 ++ r) from rfl] at htw ⊢
      rw [htw.2]
      simp
      omega
    rw [parse_inline.eq_def]
    simp only [List.cons_append, if_neg h1, if_neg h2, if_neg hc]
    rw [← List.cons_append]
    rw [dif_pos (by exact hlen)]
    rw [htw.1, htw.2, parse_inline_stop hr]
    simp

end Eglob

namespace Eglob

theorem reEscape_ne_nil {l : List Char} (h : l ≠ []) : reEscape l ≠ [] := by
  match l, h with
  | c :: l2, _ =>
    simp only [reEscape, List.flatMap_cons, reEscapeChar]
    split <;> simp

theorem intercalate_single (s a : List Char) : List.intercalate s [a] = a := by
  simp [List.intercalate]

theorem sub_eof (blocks : List (List Char)) (es : Bool) :
    parse_subpattern_loop [] blocks es = .ok ('{' :: List.intercalate [','] blocks, []) := by
  rw [parse_subpattern_loop.eq_def]

theorem sub_open (rest : List Char) (blocks : List (List Char)) :
    parse_subpattern_loop ('{' :: rest) blocks false = parse_subpattern_loop rest blocks true := by
  rw [parse_subpattern_loop.eq_def]
  simp

theorem sub_lit (l r : List Char) (blocks : List (List Char)) (es : Bool)
    (hl : ∀ c ∈ l, ¬(isGlobChar c = true)) (hne : l ≠ []) (hr : InlineStop r) :
    parse_subpattern_loop (l ++ r) blocks es =
      parse_subpattern_loop r (blocks ++ [reEscape l]) es := by
  match l, hne with
  | c :: l2, _ =>
    have hc := hl c (by simp)
    obtain ⟨h1, h2, h3, h4, h5, -⟩ := ne_of_not_glob hc
    have hinl := parse_inline_lit (c :: l2) r hl (by simp) hr
    rw [parse_subpattern_loop.eq_def]
    simp only [List.cons_append]
    rw [if_neg h3, if_neg (ne_of_not_glob hc).2.2.2.2.2.2.2, if_neg h4, if_neg h5]
    rw [← List.cons_append, hinl]
    simp only []
    rw [if_neg (by simpa using @reEscape_ne_nil (c :: l2) (by simp))]
    rw [dif_pos (by simp only [List.length_cons, List.length_append]; omega)]

end Eglob

namespace Eglob

theorem subpattern_unterminated (t : List Char)
    (ht : ∀ c ∈ t, ¬(isGlobChar c = true)) (htne : t ≠ []) :
    parse_subpattern ('{' :: t) = .ok ('{' :: reEscape t, []) := by
  unfold parse_subpattern
  rw [sub_open]
  rw [show t = t ++ [] by simp]
  rw [sub_lit t [] [] true (by simpa using ht) (by simpa using htne) (Or.inl rfl)]
  rw [sub_eof]
  simp [intercalate_single]

end Eglob

namespace Eglob

theorem glob_eof (total : Nat) (acc : List Char) : glob_loop total [] acc = .ok acc := by
  rw [glob_loop.eq_def]

theorem glob_stop_err (total : Nat) (c : Char) (r acc : List Char)
    (hg : isGlobChar c = true) (h1 : c ≠ '*') (h2 : c ≠ '?') (h3 : c ≠ '{') (h4 : c ≠ '[') :
    glob_loop total (c :: r) acc = .error (.invalidSegmentCharacters (c :: r)) := by
  rw [glob_loop.eq_def]
  have hinl : parse_inline (c :: r) = ([], c :: r) :=
    parse_inline_stop (Or.inr ⟨c, r, rfl, hg, h1, h2⟩)
  cases r with
  | nil => simp [h1, h3, h4, hinl]
  | cons c2 r2 => simp [h1, h3, h4, hinl]

theorem glob_lit (total : Nat) (l r acc : List Char)
    (hl : ∀ c ∈ l, ¬(isGlobChar c = true)) (hne : l ≠ [])
    (hr : r = [] ∨ ∃ c2 r2, r = c2 :: r2 ∧ isGlobChar c2 = true ∧
      c2 ≠ '*' ∧ c2 ≠ '?' ∧ c2 ≠ '{' ∧ c2 ≠ '[') :
    glob_loop total (l ++ r) acc = glob_loop total r (acc ++ reEscape l) := by
  match l, hne with
  | c :: l2, _ =>
    have hc := hl c (by simp)
    obtain ⟨h1, h2, h3, h4, h5, -⟩ := ne_of_not_glob hc
    have hstop : InlineStop r := by
      rcases hr with rfl | ⟨c2, r2, rfl, hg2, hs2, hq2, -⟩
      · exact Or.inl rfl
      · exact Or.inr ⟨c2, r2, rfl, hg2, hs2, hq2⟩
    have hinl := parse_inline_lit (c :: l2) r hl (by simp) hstop
    conv_lhs => rw [glob_loop.eq_def]
    split
    · rename_i heq
      simp at heq
    · rename_i rest heq
      exfalso
      rw [List.cons_append] at heq
      injection heq with hc0 _
      exact h1 hc0
    · rename_i c0 rest heq
      rw [List.cons_append] at heq
      injection heq with hc0 hrest
      subst hc0
      subst hrest
      rw [if_neg h3, if_neg h5]
      rw [show (c :: (l2 ++ r)) = (c :: l2) ++ r from rfl, hinl]
      simp only []
      rw [if_neg (by simpa using @reEscape_ne_nil (c :: l2) (by simp))]
      rw [dif_pos (by simp only [List.cons_append, List.length_cons, List.length_append]; omega)]

end Eglob

namespace Eglob

theorem glob_brace_done (total : Nat) (rest sub acc : List Char)
    (h : parse_subpattern ('{' :: rest) = .ok (sub, [])) :
    glob_loop total ('{' :: rest) acc = .ok (acc ++ sub) := by
  conv_lhs => rw [glob_loop.eq_def]
  split
  · rename_i heq; simp at heq
  · rename_i rest2 heq
    exfalso
    injection heq with hc0 _
    exact absurd hc0.symm (by decide)
  · rename_i c0 rest2 heq
    injection heq with hc0 hrest
    subst hc0
    subst hrest
    rw [if_pos rfl, h]
    simp only []
    rw [dif_pos (by simp)]
    rw [glob_eof]

theorem glob_range_done (total : Nat) (rest sub acc : List Char)
    (h : parse_range ('[' :: rest) = .ok (sub, [])) :
    glob_loop total ('[' :: rest) acc = .ok (acc ++ sub) := by
  conv_lhs => rw [glob_loop.eq_def]
  split
  · rename_i heq; simp at heq
  · rename_i rest2 heq
    exfalso
    injection heq with hc0 _
    exact absurd hc0.symm (by decide)
  · rename_i c0 rest2 heq
    injection heq with hc0 hrest
    subst hc0
    subst hrest
    rw [if_neg (by decide), if_pos rfl, h]
    simp only []
    rw [dif_pos (by simp)]
    rw [glob_eof]

theorem glob_range_err (total : Nat) (rest acc : List Char) (e : CompileErr)
    (h : parse_range ('[' :: rest) = .error e) :
    glob_loop total ('[' :: rest) acc = .error e := by
  conv_lhs => rw [glob_loop.eq_def]
  split
  · rename_i heq; simp at heq
  · rename_i rest2 heq
    exfalso
    injection heq with hc0 _
    exact absurd hc0.symm (by decide)
  · rename_i c0 rest2 heq
    injection heq with hc0 hrest
    subst hc0
    subst hrest
    rw [if_neg (by decide), if_pos rfl, h]

end Eglob

namespace Eglob

theorem parse_range_unterminated (t : List Char)
    (ht : ∀ c ∈ t, ¬(isGlobChar c = true)) (htne : t ≠ []) :
    ∃ t2, parse_range ('[' :: t) = .ok ('[' :: t2, []) ∧
      ¬(']' ∈ t2) ∧ ¬('\\' ∈ t2) ∧ t2 ≠ [] := by
  match t, htne with
  | c0 :: t3, _ =>
    have hc0 := ht c0 (by simp)
    obtain ⟨-, -, -, -, h5, h6, h7, -⟩ := ne_of_not_glob hc0
    have hnb : ∀ c ∈ c0 :: t3, (fun ch => !(ch = '[' || ch = ']')) c = true := by
      intro c hcm
      have := ne_of_not_glob (ht c hcm)
      simp [this.2.2.2.2.1, this.2.2.2.2.2.1]
    have htw := takeWhile_app_stop (c0 :: t3) [] (fun ch => !(ch = '[' || ch = ']'))
      hnb (Or.inl rfl)
    simp only [List.append_nil] at htw
    have step1 : parse_range ('[' :: c0 :: t3) = parse_range_loop (c0 :: t3) [['[']] := by
      unfold parse_range
      conv_lhs => rw [parse_range_loop.eq_def]
      split
      · rename_i heq; simp at heq
      · rename_i rest2 heq
        exfalso
        injection heq with _ heq2
        injection heq2 with hc0e _
        exact h7 hc0e
      · rename_i rest heq
        injection heq with _ heq2
        rw [heq2]
        simp
      · rename_i cg restg hneg1 hneg2 heq
        exfalso
        injection heq with hce _
        exact hneg2 hce.symm
    have step2 : parse_range_loop (c0 :: t3) [['[']] =
        parse_range_loop [] [['['], c0 :: t3] := by
      conv_lhs => rw [parse_range_loop.eq_def]
      split
      · rename_i heq; simp at heq
      · rename_i rest2 heq
        exfalso
        injection heq with hc0e _
        exact h5 hc0e
      · rename_i rest heq
        exfalso
        injection heq with hc0e _
        exact h5 hc0e
      · rename_i cg restg hneg1 hneg2 heq
        injection heq with hce hre
        subst hce
        subst hre
        rw [if_neg h6]
        rw [dif_pos (by rw [htw.2]; simp)]
        rw [htw.1, htw.2]
        simp
    have step3 : parse_range_loop [] [['['], c0 :: t3] =
        (if c0 :: t3 = ['^'] then .ok (['[', '!'], [])
         else .ok ('[' :: c0 :: t3, [])) := by
      rw [parse_range_loop.eq_def]
      by_cases h8 : c0 :: t3 = ['^']
      · rw [h8]
        simp
      · simp only [List.getElem?_cons_zero, List.getElem?_cons_succ]
        simp only [if_neg h8]
        simp
    rw [step1, step2, step3]
    by_cases h8 : c0 :: t3 = ['^']
    · rw [if_pos h8]
      exact ⟨['!'], rfl, by decide, by decide, by decide⟩
    · rw [if_neg h8]
      refine ⟨c0 :: t3, rfl, ?_, ?_, by simp⟩
      · intro hmem
        exact (ne_of_not_glob (ht ']' hmem)).2.2.2.2.2.1 rfl
      · intro hmem
        have := ht '\\' hmem
        exact this (by decide)

end Eglob

namespace Eglob

theorem ne_of_not_special {c : Char} (h : ¬(RE_SPECIAL.contains c = true)) :
    c ≠ '(' ∧ c ≠ ')' ∧ c ≠ '[' ∧ c ≠ ']' ∧ c ≠ '{' ∧ c ≠ '}' ∧ c ≠ '?' ∧ c ≠ '*' ∧
    c ≠ '+' ∧ c ≠ '|' ∧ c ≠ '^' ∧ c ≠ '$' ∧ c ≠ '\\' ∧ c ≠ '.' := by
  refine ⟨?_, ?_, ?_, ?_, ?_, ?_, ?_, ?_, ?_, ?_, ?_, ?_, ?_, ?_⟩ <;> rintro rfl <;>
    exact h (by decide)

theorem applyQuant_no (a : Regex) (l : List Char) (h : QuantStop l) :
    applyQuant a l = .ok (a, l) := by
  rcases h with rfl | ⟨c2, r2, rfl, h1, h2, h3, h4⟩
  · rfl
  · unfold applyQuant
    split
    · rename_i heq; exfalso; injection heq with hc _; exact h1 hc
    · rename_i heq; exfalso; injection heq with hc _; exact h2 hc
    · rename_i heq; exfalso; injection heq with hc _; exact h3 hc
    · rename_i rest heq; exfalso; injection heq with hc _; exact h4 hc
    · rfl

theorem parseSeq_raw_step (c : Char) (rest : List Char) (acc : Regex)
    (hns : ¬(RE_SPECIAL.contains c = true)) (hng : ¬(isGlobChar c = true))
    (hq : QuantStop rest) :
    parseSeq (c :: rest) acc = parseSeq rest (.seq acc (.lit c)) := by
  obtain ⟨n1, n2, n3, n4, n5, n6, n7, n8, n9, n10, n11, n12, n13, n14⟩ := ne_of_not_special hns
  conv_lhs => rw [parseSeq.eq_def]
  split
  · rename_i heq; simp at heq
  · rename_i r0 heq; exfalso; injection heq with hc _; exact n1 hc
  · rename_i r0 heq; exfalso; injection heq with hc _; exact n1 hc
  · rename_i r0 heq; exfalso; injection heq with hc _; exact n3 hc
  · rename_i r0 heq; exfalso; injection heq with hc _; exact n3 hc
  · rename_i heq; exfalso; injection heq with hc _; exact n13 hc
  · rename_i d r0 heq; exfalso; injection heq with hc _; exact n13 hc
  · rename_i c0 r0 hne1 hne2 hne3 hne4 hne5 heq
    injection heq with hc hr
    subst hc
    subst hr
    rw [if_neg (by simp [n10, n2]), if_neg (by simp [n8, n9, n7]),
      if_neg (by simp [n11, n12]), if_neg n14, if_neg n5]
    rw [applyQuant_no (.lit c) rest hq]
    simp only []
    rw [dif_pos (by simp)]

end Eglob

namespace Eglob

theorem parseSeq_esc_step (d : Char) (rest : List Char) (acc : Regex)
    (hq : QuantStop rest) :
    parseSeq ('\\' :: d :: rest) acc = parseSeq rest (.seq acc (.lit d)) := by
  conv_lhs => rw [parseSeq.eq_def]
  split
  · rename_i heq; simp at heq
  · rename_i r0 heq; exfalso; injection heq with hc _; exact absurd hc.symm (by decide)
  · rename_i r0 heq; exfalso; injection heq with hc _; exact absurd hc.symm (by decide)
  · rename_i r0 heq; exfalso; injection heq with hc _; exact absurd hc.symm (by decide)
  · rename_i r0 heq; exfalso; injection heq with hc _; exact absurd hc.symm (by decide)
  · rename_i heq
    exfalso
    injection heq with _ heq2
    simp at heq2
  · rename_i d0 r0 heq
    injection heq with _ heq2
    injection heq2 with hd hr
    subst hd
    subst hr
    rw [applyQuant_no (.lit d) rest hq]
    simp only []
    rw [dif_pos (by simp only [List.length_cons]; omega)]
  · rename_i c0 r0 hne1 hne2 hne3 hne4 hne5 heq
    exfalso
    injection heq with h1 h2
    exact hne5 d rest h1.symm h2.symm

/-- Whether the escape of a non-glob run followed by a quantifier-free
tail still starts quantifier-free. -/
theorem quantStop_reEscape_append (t r : List Char)
    (ht : ∀ c ∈ t, ¬(isGlobChar c = true)) (hr : QuantStop r) :
    QuantStop (reEscape t ++ r) := by
  cases t with
  | nil => simpa [reEscape] using hr
  | cons c t2 =>
    have hstep : reEscape (c :: t2) = reEscapeChar c ++ reEscape t2 := rfl
    rw [hstep]
    by_cases hs : RE_SPECIAL.contains c = true
    · rw [reEscapeChar, if_pos hs]
      exact Or.inr ⟨'\\', c :: (reEscape t2 ++ r), by simp, by decide, by decide,
        by decide, by decide⟩
    · rw [reEscapeChar, if_neg hs]
      obtain ⟨-, -, -, -, h5, -, h7, h8, h9, -⟩ := ne_of_not_special hs
      exact Or.inr ⟨c, reEscape t2 ++ r, by simp, h8, h9, h7, h5⟩

theorem parseSeq_stop (r : List Char) (acc : Regex) (hr : SeqStop r) :
    parseSeq r acc = .ok (acc, r) := by
  rcases hr with rfl | ⟨r2, rfl | rfl⟩
  · rw [parseSeq.eq_def]
  · conv_lhs => rw [parseSeq.eq_def]
    split
    · rename_i heq; simp at heq
    · rename_i r0 heq; exfalso; injection heq with hc _; exact absurd hc (by decide)
    · rename_i r0 heq; exfalso; injection heq with hc _; exact absurd hc (by decide)
    · rename_i r0 heq; exfalso; injection heq with hc _; exact absurd hc (by decide)
    · rename_i r0 heq; exfalso; injection heq with hc _; exact absurd hc (by decide)
    · rename_i heq; exfalso; injection heq with hc _; exact absurd hc (by decide)
    · rename_i d0 r0 heq; exfalso; injection heq with hc _; exact absurd hc (by decide)
    · rename_i c0 r0 hne1 hne2 hne3 hne4 hne5 heq
      injection heq with hc hr0
      subst hc
      subst hr0
      rw [if_pos (by decide)]
  · conv_lhs => rw [parseSeq.eq_def]
    split
    · rename_i heq; simp at heq
    · rename_i r0 heq; exfalso; injection heq with hc _; exact absurd hc (by decide)
    · rename_i r0 heq; exfalso; injection heq with hc _; exact absurd hc (by decide)
    · rename_i r0 heq; exfalso; injection heq with hc _; exact absurd hc (by decide)
    · rename_i r0 heq; exfalso; injection heq with hc _; exact absurd hc (by decide)
    · rename_i heq; exfalso; injection heq with hc _; exact absurd hc (by decide)
    · rename_i d0 r0 heq; exfalso; injection heq with hc _; exact absurd hc (by decide)
    · rename_i c0 r0 hne1 hne2 hne3 hne4 hne5 heq
      injection heq with hc hr0
      subst hc
      subst hr0
      rw [if_pos (by decide)]

theorem parseSeq_lit (t : List Char) (r : List Char) (acc : Regex)
    (ht : ∀ c ∈ t, ¬(isGlobChar c = true)) (hr : SeqStop r) :
    parseSeq (reEscape t ++ r) acc = .ok (litFold acc t, r) := by
  induction t generalizing acc with
  | nil =>
    simp only [reEscape, List.flatMap_nil, List.nil_append]
    rw [parseSeq_stop r acc hr]
    rfl
  | cons c t2 ih =>
    have hc := ht c (by simp)
    have hq : QuantStop (reEscape t2 ++ r) := by
      apply quantStop_reEscape_append t2 r (fun d hd => ht d (by simp [hd]))
      rcases hr with rfl | ⟨r2, rfl | rfl⟩
      · exact Or.inl rfl
      · exact Or.inr ⟨'|', r2, rfl, by decide, by decide, by decide, by decide⟩
      · exact Or.inr ⟨')', r2, rfl, by decide, by decide, by decide, by decide⟩
    have hfold : litFold acc (c :: t2) = litFold (.seq acc (.lit c)) t2 := rfl
    by_cases hs : RE_SPECIAL.contains c = true
    · have hesc : reEscape (c :: t2) ++ r = '\\' :: c :: (reEscape t2 ++ r) := by
        simp only [reEscape, List.flatMap_cons, reEscapeChar, if_pos hs]
        simp
      rw [hesc]
      rw [parseSeq_esc_step c (reEscape t2 ++ r) acc hq]
      rw [ih (.seq acc (.lit c)) (fun d hd => ht d (by simp [hd]))]
      rw [hfold]
    · have hesc : reEscape (c :: t2) ++ r = c :: (reEscape t2 ++ r) := by
        simp only [reEscape, List.flatMap_cons, reEscapeChar, if_neg hs]
        simp
      rw [hesc]
      rw [parseSeq_raw_step c (reEscape t2 ++ r) acc hs hc hq]
      rw [ih (.seq acc (.lit c)) (fun d hd => ht d (by simp [hd]))]
      rw [hfold]

end Eglob

namespace Eglob

theorem mem_reEscape {c : Char} {t : List Char} (h : c ∈ reEscape t) :
    c = '\\' ∨ c ∈ t := by
  induction t with
  | nil => simp [reEscape] at h
  | cons a t2 ih =>
    rw [show reEscape (a :: t2) = reEscapeChar a ++ reEscape t2 from rfl] at h
    rcases List.mem_append.mp h with h1 | h2
    · rw [reEscapeChar] at h1
      split at h1
      · rcases List.mem_cons.mp h1 with rfl | h3
        · exact Or.inl rfl
        · rcases List.mem_singleton.mp h3 with rfl
          exact Or.inr (by simp)
      · rcases List.mem_singleton.mp h1 with rfl
        exact Or.inr (by simp)
    · rcases ih h2 with h3 | h3
      · exact Or.inl h3
      · exact Or.inr (by simp [h3])

theorem tryQuant_none (l : List Char) (h : ¬('}' ∈ l)) : tryQuant l = none := by
  have hsub1 : ∀ c, c ∈ l.dropWhile Char.isDigit → c ∈ l :=
    fun c hc => (List.dropWhile_sublist Char.isDigit).mem hc
  unfold tryQuant
  dsimp only
  split
  · rename_i rest heq
    exfalso
    exact h (hsub1 '}' (by rw [heq]; simp))
  · rename_i r2 heq
    have hsub2 : ∀ c, c ∈ r2.dropWhile Char.isDigit → c ∈ l := by
      intro c hc
      have h1 : c ∈ r2 := (List.dropWhile_sublist Char.isDigit).mem hc
      exact hsub1 c (by rw [heq]; simp [h1])
    split
    · rename_i rest heq2
      exfalso
      exact h (hsub2 '}' (by rw [heq2]; simp))
    · rfl
  · rfl

end Eglob

namespace Eglob

end Eglob

namespace Eglob

end Eglob

namespace Eglob

theorem reParse_brace_escape (t : List Char) (ht : ∀ c ∈ t, ¬(isGlobChar c = true)) :
    reParse ('{' :: reEscape t) = .ok (litFold (.seq .eps (.lit '{')) t) := by
  have hq : tryQuant (reEscape t) = none := by
    apply tryQuant_none
    intro hmem
    rcases mem_reEscape hmem with h1 | h1
    · exact absurd h1 (by decide)
    · exact (ne_of_not_glob (ht '}' h1)).2.2.2.1 rfl
  have hseq : parseSeq ('{' :: reEscape t) .eps =
      .ok (litFold (.seq .eps (.lit '{')) t, []) := by
    conv_lhs => rw [parseSeq.eq_def]
    split
    · rename_i heq; simp at heq
    · rename_i r0 heq; exfalso; injection heq with hc _; exact absurd hc (by decide)
    · rename_i r0 hne1 heq; exfalso; injection heq with hc _; exact absurd hc (by decide)
    · rename_i r0 heq; exfalso; injection heq with hc _; exact absurd hc (by decide)
    · rename_i r0 heq; exfalso; injection heq with hc _; exact absurd hc (by decide)
    · rename_i heq; exfalso; injection heq with hc _; exact absurd hc (by decide)
    · rename_i d0 r0 heq; exfalso; injection heq with hc _; exact absurd hc (by decide)
    · rename_i c0 r0 hne1 hne2 hne3 hne4 hne5 heq
      injection heq with h1 h2
      subst h1
      subst h2
      rw [if_neg (by decide), if_neg (by decide), if_neg (by decide), if_neg (by decide),
        if_pos rfl]
      rw [hq]
      simp only []
      rw [applyQuant_no (.lit '{') (reEscape t)
        (by simpa using quantStop_reEscape_append t [] ht (Or.inl rfl))]
      simp only []
      rw [dif_pos (by simp)]
      rw [show reEscape t = reEscape t ++ [] by simp]
      rw [parseSeq_lit t [] (.seq .eps (.lit '{')) ht (Or.inl rfl)]
  unfold reParse
  conv_lhs => rw [parseAlt.eq_def]
  rw [hseq]

end Eglob

namespace Eglob

theorem cls_step_single (c : Char) (rest : List Char) (first : Bool)
    (acc : List ClassItem) (hc1 : c ≠ ']' ∨ first = true) (hc2 : c ≠ '\\')
    (hrest : rest = [] ∨ ∃ c2 rest2, rest = c2 :: rest2 ∧ c2 ≠ '-') :
    parse_class_loop (c :: rest) first acc =
      parse_class_loop rest false (acc ++ [.single c]) := by
  conv_lhs => rw [parse_class_loop.eq_def]
  split
  · rename_i heq; simp at heq
  · rename_i heq; exfalso; injection heq with h1 h2; exact hc2 h1
  · rename_i d0 r0 heq
    exfalso
    injection heq with h1 _
    exact hc2 h1
  · rename_i c0 r0 hne1 hne2 heq
    injection heq with h1 h2
    subst h1
    subst h2
    rw [if_neg (by
      simp only [Bool.and_eq_true, decide_eq_true_eq]
      rintro ⟨h1, h2⟩
      rcases hc1 with h | h
      · exact h h1
      · rw [h] at h2; simp at h2)]
    split
    · rename_i rest2 heq2
      exfalso
      rcases hrest with habs | ⟨c2, r2, heqx, hd⟩
      · simp at habs
      · injection heqx with h3 _
        exact hd h3.symm
    · rename_i heq2
      exfalso
      rcases hrest with habs | ⟨c2, r2, heqx, hd⟩
      · simp at habs
      · injection heqx with h3 _
        exact hd h3.symm
    · rename_i e0 r0 heq2
      exfalso
      rcases hrest with habs | ⟨c2, r2, heqx, hd⟩
      · simp at habs
      · injection heqx with h3 _
        exact hd h3.symm
    · rename_i heq2
      exfalso
      rcases hrest with habs | ⟨c2, r2, heqx, hd⟩
      · simp at habs
      · injection heqx with h3 _
        exact hd h3.symm
    · rename_i e0 r0 heq2
      exfalso
      rcases hrest with habs | ⟨c2, r2, heqx, hd⟩
      · simp at habs
      · injection heqx with h3 _
        exact hd h3.symm
    · rw [dif_pos (by simp)]

end Eglob

namespace Eglob

theorem cls_step_dash_eof (c : Char) (first : Bool) (acc : List ClassItem)
    (hc1 : c ≠ ']' ∨ first = true) (hc2 : c ≠ '\\') :
    parse_class_loop (c :: '-' :: []) first acc = .error .unterminatedClass := by
  conv_lhs => rw [parse_class_loop.eq_def]
  split
  · rename_i heq; simp at heq
  · rename_i heq; exfalso; injection heq with h1 h2; exact hc2 h1
  · rename_i d0 r0 heq
    exfalso
    injection heq with h1 _
    exact hc2 h1
  · rename_i c0 r0 hne1 hne2 heq
    injection heq with h1 h2
    subst h1
    subst h2
    rw [if_neg (by
      simp only [Bool.and_eq_true, decide_eq_true_eq]
      rintro ⟨h1, h2⟩
      rcases hc1 with h | h
      · exact h h1
      · rw [h] at h2; simp at h2)]
    split
    · rename_i rest2 heq2; exfalso; injection heq2 with _ h3; simp at h3
    · rename_i heq2; exfalso; injection heq2 with _ h3; simp at h3
    · rename_i e0 r2 heq2; exfalso; injection heq2 with _ h3; simp at h3
    · rfl
    · rename_i e0 r2 heq2; exfalso; injection heq2 with _ h3; simp at h3
    · rename_i hne3 hne4 hne5 hne6 hne7
      exact absurd rfl hne6

theorem cls_step_dash (c e : Char) (rest2 : List Char) (first : Bool)
    (acc : List ClassItem) (hc1 : c ≠ ']' ∨ first = true) (hc2 : c ≠ '\\')
    (he1 : e ≠ ']') (he2 : e ≠ '\\') :
    parse_class_loop (c :: '-' :: e :: rest2) first acc =
      (if c ≤ e then parse_class_loop rest2 false (acc ++ [.range c e])
       else .error .badCharacterRange) := by
  conv_lhs => rw [parse_class_loop.eq_def]
  split
  · rename_i heq; simp at heq
  · rename_i heq; exfalso; injection heq with h1 h2; exact hc2 h1
  · rename_i d0 r0 heq
    exfalso
    injection heq with h1 _
    exact hc2 h1
  · rename_i c0 r0 hne1 hne2 heq
    injection heq with h1 h2
    subst h1
    subst h2
    rw [if_neg (by
      simp only [Bool.and_eq_true, decide_eq_true_eq]
      rintro ⟨h1, h2⟩
      rcases hc1 with h | h
      · exact h h1
      · rw [h] at h2; simp at h2)]
    split
    · rename_i rest3 heq2
      exfalso
      injection heq2 with _ h3
      injection h3 with h4 _
      exact he1 h4
    · rename_i heq2
      exfalso
      injection heq2 with _ h3
      injection h3 with h4 h5
      exact he2 h4
    · rename_i e0 r2 heq2
      exfalso
      injection heq2 with _ h3
      injection h3 with h4 _
      exact he2 h4
    · rename_i heq2; exfalso; injection heq2 with _ h3; simp at h3
    · rename_i e0 r2 heq2
      injection heq2 with _ h3
      injection h3 with h4 h5
      subst h4
      subst h5
      rw [if_neg he1]
    · rename_i hne3 hne4 hne5 hne6 hne7
      exact absurd rfl (hne7 e rest2)

end Eglob

namespace Eglob

theorem parse_class_loop_err (n : Nat) : ∀ (l : List Char) (first : Bool)
    (acc : List ClassItem), l.length ≤ n → ¬(']' ∈ l) → ¬('\\' ∈ l) →
    ∃ e, parse_class_loop l first acc = .error e := by
  induction n with
  | zero =>
    intro l first acc hlen hb hs
    have hl : l = [] := List.eq_nil_of_length_eq_zero (Nat.le_zero.mp hlen)
    subst hl
    exact ⟨.unterminatedClass, by rw [parse_class_loop.eq_def]⟩
  | succ n ih =>
    intro l first acc hlen hb hs
    rcases l with _ | ⟨c, rest⟩
    · exact ⟨.unterminatedClass, by rw [parse_class_loop.eq_def]⟩
    · have hcb : c ≠ ']' := fun h => hb (by simp [h])
      have hcs : c ≠ '\\' := fun h => hs (by simp [h])
      have hrb : ¬(']' ∈ rest) := fun h => hb (by simp [h])
      have hrs : ¬('\\' ∈ rest) := fun h => hs (by simp [h])
      have hlen2 : rest.length ≤ n := by
        simp only [List.length_cons] at hlen
        omega
      rcases rest with _ | ⟨c2, rest2⟩
      · rw [cls_step_single c [] first acc (Or.inl hcb) hcs (Or.inl rfl)]
        exact ⟨.unterminatedClass, by rw [parse_class_loop.eq_def]⟩
      · by_cases hdash : c2 = '-'
        · subst hdash
          rcases rest2 with _ | ⟨e, rest3⟩
          · rw [cls_step_dash_eof c first acc (Or.inl hcb) hcs]
            exact ⟨.unterminatedClass, rfl⟩
          · have heb : e ≠ ']' := fun h => hrb (by simp [h])
            have hes : e ≠ '\\' := fun h => hrs (by simp [h])
            rw [cls_step_dash c e rest3 first acc (Or.inl hcb) hcs heb hes]
            by_cases hle : c ≤ e
            · rw [if_pos hle]
              apply ih rest3 false (acc ++ [ClassItem.range c e])
              · simp only [List.length_cons] at hlen
                omega
              · exact fun h => hrb (by simp [h])
              · exact fun h => hrs (by simp [h])
            · rw [if_neg hle]
              exact ⟨.badCharacterRange, rfl⟩
        · rw [cls_step_single c (c2 :: rest2) first acc (Or.inl hcb) hcs
            (Or.inr ⟨c2, rest2, rfl, hdash⟩)]
          exact ih (c2 :: rest2) false (acc ++ [ClassItem.single c]) hlen2 hrb hrs

theorem parseSeq_class_err_at (body : List Char) (e : ReErr)
    (h : parse_class_loop body true [] = .error e) :
    parseSeq ('[' :: '^' :: body) Regex.eps = .error e := by
  · conv_lhs => rw [parseSeq.eq_def]
    split
    · rename_i heq; simp at heq
    · rename_i r0 heq; exfalso; injection heq with hc _; exact absurd hc (by decide)
    · rename_i r0 hne1 heq; exfalso; injection heq with hc _; exact absurd hc (by decide)
    · rename_i r0 heq
      have hr0 : r0 = body := by
        injection heq with _ h2
        injection h2 with _ h3
        exact h3.symm
      subst hr0
      rw [h]
    · rename_i r0 hne1 heq
      exfalso
      injection heq with _ h2
      exact hne1 body h2.symm
    · rename_i heq; exfalso; injection heq with hc _; exact absurd hc (by decide)
    · rename_i d0 r0 heq; exfalso; injection heq with hc _; exact absurd hc (by decide)
    · rename_i c0 r0 hne1 hne2 hne3 hne4 hne5 heq
      exfalso
      injection heq with h1 h2
      exact hne3 h1.symm

theorem parseSeq_class_err_plain (body : List Char) (e : ReErr)
    (hcar : body = [] ∨ ∃ c2 t3, body = c2 :: t3 ∧ c2 ≠ '^')
    (h : parse_class_loop body true [] = .error e) :
    parseSeq ('[' :: body) Regex.eps = .error e := by
  conv_lhs => rw [parseSeq.eq_def]
  split
  · rename_i heq; simp at heq
  · rename_i r0 heq; exfalso; injection heq with hc _; exact absurd hc (by decide)
  · rename_i r0 hne1 heq; exfalso; injection heq with hc _; exact absurd hc (by decide)
  · rename_i r0 heq
    exfalso
    injection heq with _ h2
    rcases hcar with rfl | ⟨c2, t3, rfl, hx⟩
    · simp at h2
    · injection h2 with h3 _
      exact hx h3
  · rename_i r0 hne1 heq
    have hr0 : r0 = body := by
      injection heq with _ h2
      exact h2.symm
    subst hr0
    rw [h]
  · rename_i heq; exfalso; injection heq with hc _; exact absurd hc (by decide)
  · rename_i d0 r0 heq; exfalso; injection heq with hc _; exact absurd hc (by decide)
  · rename_i c0 r0 hne1 hne2 hne3 hne4 hne5 heq
    exfalso
    injection heq with h1 h2
    exact hne3 h1.symm

theorem reParse_class_err (t2 : List Char) (hb : ¬(']' ∈ t2)) (hs : ¬('\\' ∈ t2)) :
    ∃ e, reParse ('[' :: t2) = .error e := by
  have hseq : ∃ e, parseSeq ('[' :: t2) Regex.eps = .error e := by
    rcases t2 with _ | ⟨c2, t3⟩
    · obtain ⟨e, he⟩ := parse_class_loop_err 0 [] true [] (Nat.le_refl _)
        (by simp) (by simp)
      exact ⟨e, parseSeq_class_err_plain [] e (Or.inl rfl) he⟩
    · by_cases hcar : c2 = '^'
      · subst hcar
        obtain ⟨e, he⟩ := parse_class_loop_err t3.length t3 true []
          (Nat.le_refl _) (fun h => hb (by simp [h])) (fun h => hs (by simp [h]))
        exact ⟨e, parseSeq_class_err_at t3 e he⟩
      · obtain ⟨e, he⟩ := parse_class_loop_err (c2 :: t3).length (c2 :: t3) true []
          (Nat.le_refl _) hb hs
        exact ⟨e, parseSeq_class_err_plain (c2 :: t3) e (Or.inr ⟨c2, t3, rfl, hcar⟩) he⟩
  obtain ⟨e, he⟩ := hseq
  refine ⟨e, ?_⟩
  unfold reParse
  rw [parseAlt.eq_def, he]

end Eglob

namespace Eglob

theorem compile_brace_unterminated (t : List Char)
    (ht : ∀ c ∈ t, ¬(isGlobChar c = true)) (htne : t ≠ []) :
    SegmentPattern.compile ⟨'{' :: t⟩ =
      .ok ⟨⟨'{' :: t⟩, litFold (.seq .eps (.lit '{')) t⟩ := by
  unfold SegmentPattern.compile
  rw [show (⟨'{' :: t⟩ : String).toList = '{' :: t from rfl]
  unfold glob_to_regex
  rw [glob_brace_done ('{' :: t).length t _ [] (subpattern_unterminated t ht htne)]
  simp only [List.nil_append]
  rw [reParse_brace_escape t ht]

theorem compile_range_unterminated (t : List Char)
    (ht : ∀ c ∈ t, ¬(isGlobChar c = true)) (htne : t ≠ []) :
    ∃ e, SegmentPattern.compile ⟨'[' :: t⟩ = .error (.reError e) := by
  obtain ⟨t2, hrange, hb, hbs, htne2⟩ := parse_range_unterminated t ht htne
  obtain ⟨e, hre⟩ := reParse_class_err t2 hb hbs
  refine ⟨e, ?_⟩
  unfold SegmentPattern.compile
  rw [show (⟨'[' :: t⟩ : String).toList = '[' :: t from rfl]
  unfold glob_to_regex
  rw [glob_range_done ('[' :: t).length t _ [] hrange]
  simp only [List.nil_append]
  rw [hre]

theorem compile_c9 (l r : List Char) (c : Char)
    (hc : c ∈ [',', '!', '}', ']'])
    (hl : ∀ ch ∈ l, ¬(isGlobChar ch = true)) :
    SegmentPattern.compile ⟨l ++ c :: r⟩ =
      .error (.invalidSegmentCharacters (c :: r)) := by
  have hc0 : c = ',' ∨ c = '!' ∨ c = '}' ∨ c = ']' := by
    simpa using hc
  have hcg : isGlobChar c = true := by
    rcases hc0 with rfl | rfl | rfl | rfl <;> decide
  have hc1 : c ≠ '*' := by
    rcases hc0 with rfl | rfl | rfl | rfl <;> decide
  have hc2 : c ≠ '?' := by
    rcases hc0 with rfl | rfl | rfl | rfl <;> decide
  have hc3 : c ≠ '{' := by
    rcases hc0 with rfl | rfl | rfl | rfl <;> decide
  have hc4 : c ≠ '[' := by
    rcases hc0 with rfl | rfl | rfl | rfl <;> decide
  have hglob : glob_to_regex (l ++ c :: r) =
      .error (.invalidSegmentCharacters (c :: r)) := by
    unfold glob_to_regex
    rcases hlne : l with _ | ⟨a, l2⟩
    · simp only [List.nil_append]
      exact glob_stop_err _ c r [] hcg hc1 hc2 hc3 hc4
    · rw [glob_lit _ (a :: l2) (c :: r) [] (hlne ▸ hl) (by simp)
        (Or.inr ⟨c, r, rfl, hcg, hc1, hc2, hc3, hc4⟩)]
      exact glob_stop_err _ c r _ hcg hc1 hc2 hc3 hc4
  unfold SegmentPattern.compile
  rw [show (⟨l ++ c :: r⟩ : String).toList = l ++ c :: r from rfl]
  rw [hglob]

end Eglob

namespace Eglob

theorem glob1_zero_level (entries : List FsEntry) (root name : String)
    (m0 : SegmentPattern) (s1 : Segment) (rest : List Segment) (l : List String)
    (hpat : m0.pattern = "**") (hmem : FsEntry.file name ∈ entries)
    (hmatch : s1.pat.match name = true)
    (hok : glob1 entries root (.directorySegment m0 :: s1 :: rest) = .ok l) :
    (root ++ "/" ++ name) ∈ l := by
  induction entries generalizing l with
  | nil => cases hmem
  | cons e es ih =>
    rcases e with n | ⟨n, ch⟩
    · rw [glob1, hpat] at hok
      simp only [if_pos rfl, List.head?_cons] at hok
      rcases List.mem_cons.mp hmem with heq | hmem2
      · injection heq with hn
        subst hn
        rw [hmatch, if_pos rfl] at hok
        rcases hes : glob1 es root (Segment.directorySegment m0 :: s1 :: rest)
          with e2 | l2
        · rw [hes] at hok; cases hok
        · rw [hes] at hok
          simp only [] at hok
          injection hok with hok2
          subst hok2
          simp
      · rcases hsm : s1.pat.match n with _ | _
        · rw [hsm] at hok
          simp only [Bool.false_eq_true, if_false] at hok
          exact ih l hmem2 hok
        · rw [hsm, if_pos rfl] at hok
          rcases hes : glob1 es root (Segment.directorySegment m0 :: s1 :: rest)
            with e2 | l2
          · rw [hes] at hok; cases hok
          · rw [hes] at hok
            simp only [] at hok
            injection hok with hok2
            subst hok2
            simp [ih l2 hmem2 hes]
    · rw [glob1] at hok
      rcases List.mem_cons.mp hmem with heq | hmem2
      · cases heq
      · rcases hm : SegmentPattern.match m0 n with _ | _
        · rw [hm] at hok
          simp only [Bool.false_eq_true, if_false] at hok
          exact ih l hmem2 hok
        · rw [hm, if_pos rfl] at hok
          rcases hch : glob1 ch (root ++ "/" ++ n) (s1 :: rest) with e2 | l1
          · rw [hch] at hok; cases hok
          · rw [hch] at hok
            simp only [] at hok
            rcases hes : glob1 es root (Segment.directorySegment m0 :: s1 :: rest)
              with e2 | l2
            · rw [hes] at hok; cases hok
            · rw [hes] at hok
              simp only [] at hok
              injection hok with hok2
              subst hok2
              simp [ih l2 hmem2 hes]

theorem glob1_file_segment_iff (entries : List FsEntry) (root : String)
    (m : SegmentPattern) (l : List String) (p : String)
    (hok : glob1 entries root [.fileSegment m] = .ok l) :
    p ∈ l ↔ ∃ n, FsEntry.file n ∈ entries ∧ m.match n = true ∧ p = root ++ "/" ++ n := by
  induction entries generalizing l with
  | nil =>
    rw [glob1] at hok
    injection hok with hok2
    subst hok2
    simp
  | cons e es ih =>
    rcases e with n | ⟨n, ch⟩
    · rw [glob1] at hok
      rcases hm : SegmentPattern.match m n with _ | _
      · rw [hm] at hok
        simp only [Bool.false_eq_true, if_false] at hok
        rw [ih l hok]
        constructor
        · rintro ⟨n2, hn2, hm2, rfl⟩
          exact ⟨n2, by simp [hn2], hm2, rfl⟩
        · rintro ⟨n2, hn2, hm2, rfl⟩
          rcases List.mem_cons.mp hn2 with heq | hmem2
          · injection heq with hn
            subst hn
            rw [hm2] at hm
            cases hm
          · exact ⟨n2, hmem2, hm2, rfl⟩
      · rw [hm, if_pos rfl] at hok
        rcases hes : glob1 es root [.fileSegment m] with e2 | l2
        · rw [hes] at hok; cases hok
        · rw [hes] at hok
          simp only [] at hok
          injection hok with hok2
          subst hok2
          rw [List.mem_cons, ih l2 hes]
          constructor
          · rintro (rfl | ⟨n2, hn2, hm2, rfl⟩)
            · exact ⟨n, by simp, hm, rfl⟩
            · exact ⟨n2, by simp [hn2], hm2, rfl⟩
          · rintro ⟨n2, hn2, hm2, rfl⟩
            rcases List.mem_cons.mp hn2 with heq | hmem2
            · injection heq with hn
              subst hn
              exact Or.inl rfl
            · exact Or.inr ⟨n2, hmem2, hm2, rfl⟩
    · rw [glob1] at hok
      rw [ih l hok]
      constructor
      · rintro ⟨n2, hn2, hm2, rfl⟩
        exact ⟨n2, by simp [hn2], hm2, rfl⟩
      · rintro ⟨n2, hn2, hm2, rfl⟩
        rcases List.mem_cons.mp hn2 with heq | hmem2
        · cases heq
        · exact ⟨n2, hmem2, hm2, rfl⟩

theorem glob1_dir_segment_cases (entries : List FsEntry) (root : String)
    (m0 : SegmentPattern) (s1 : Segment) (rest : List Segment) (l : List String)
    (p : String)
    (hok : glob1 entries root (.directorySegment m0 :: s1 :: rest) = .ok l)
    (hp : p ∈ l) :
    (∃ n ch l1, FsEntry.dir n ch ∈ entries ∧ m0.match n = true ∧
      glob1 ch (root ++ "/" ++ n) (s1 :: rest) = .ok l1 ∧ p ∈ l1) ∨
    (∃ n, FsEntry.file n ∈ entries ∧ m0.pattern = "**" ∧ s1.pat.match n = true ∧
      p = root ++ "/" ++ n) := by
  induction entries generalizing l with
  | nil =>
    rw [glob1] at hok
    injection hok with hok2
    subst hok2
    cases hp
  | cons e es ih =>
    rcases e with n | ⟨n, ch⟩
    · rw [glob1] at hok
      by_cases hpat2 : m0.pattern = "**"
      case neg =>
        rw [if_neg hpat2] at hok
        rcases ih l hok hp with ⟨n2, ch2, l1, hmem, hm, hsub, hpm⟩ | ⟨n2, hmem, hps, hm, hpe⟩
        · exact Or.inl ⟨n2, ch2, l1, by simp [hmem], hm, hsub, hpm⟩
        · exact Or.inr ⟨n2, by simp [hmem], hps, hm, hpe⟩
      case pos =>
        rw [hpat2] at hok
        simp only [if_pos rfl, List.head?_cons] at hok
        rcases hsm : s1.pat.match n with _ | _
        · rw [hsm] at hok
          simp only [Bool.false_eq_true, if_false] at hok
          rcases ih l hok hp with ⟨n2, ch2, l1, hmem, hm, hsub, hpm⟩ | ⟨n2, hmem, hps, hm, hpe⟩
          · exact Or.inl ⟨n2, ch2, l1, by simp [hmem], hm, hsub, hpm⟩
          · exact Or.inr ⟨n2, by simp [hmem], hps, hm, hpe⟩
        · rw [hsm, if_pos rfl] at hok
          rcases hes : glob1 es root (Segment.directorySegment m0 :: s1 :: rest)
            with e2 | l2
          · rw [hes] at hok; cases hok
          · rw [hes] at hok
            simp only [] at hok
            injection hok with hok2
            subst hok2
            rcases List.mem_cons.mp hp with rfl | hp2
            · exact Or.inr ⟨n, by simp, hpat2, hsm, rfl⟩
            · rcases ih l2 hes hp2 with ⟨n2, ch2, l1, hmem, hm, hsub, hpm⟩ | ⟨n2, hmem, hps, hm, hpe⟩
              · exact Or.inl ⟨n2, ch2, l1, by simp [hmem], hm, hsub, hpm⟩
              · exact Or.inr ⟨n2, by simp [hmem], hps, hm, hpe⟩
    · rw [glob1] at hok
      rcases hm : SegmentPattern.match m0 n with _ | _
      · rw [hm] at hok
        simp only [Bool.false_eq_true, if_false] at hok
        rcases ih l hok hp with ⟨n2, ch2, l1, hmem, hm2, hsub, hpm⟩ | ⟨n2, hmem, hps, hm2, hpe⟩
        · exact Or.inl ⟨n2, ch2, l1, by simp [hmem], hm2, hsub, hpm⟩
        · exact Or.inr ⟨n2, by simp [hmem], hps, hm2, hpe⟩
      · rw [hm, if_pos rfl] at hok
        rcases hch : glob1 ch (root ++ "/" ++ n) (s1 :: rest) with e2 | l1
        · rw [hch] at hok; cases hok
        · rw [hch] at hok
          simp only [] at hok
          rcases hes : glob1 es root (Segment.directorySegment m0 :: s1 :: rest)
            with e2 | l2
          · rw [hes] at hok; cases hok
          · rw [hes] at hok
            simp only [] at hok
            injection hok with hok2
            subst hok2
            rcases List.mem_append.mp hp with hp1 | hp2
            · exact Or.inl ⟨n, ch, l1, by simp, hm, hch, hp1⟩
            · rcases ih l2 hes hp2 with ⟨n2, ch2, l12, hmem, hm2, hsub, hpm⟩ | ⟨n2, hmem, hps, hm2, hpe⟩
              · exact Or.inl ⟨n2, ch2, l12, by simp [hmem], hm2, hsub, hpm⟩
              · exact Or.inr ⟨n2, by simp [hmem], hps, hm2, hpe⟩

theorem glob1_shape_ok (n : Nat) : ∀ (entries : List FsEntry), sizeOf entries ≤ n →
    ∀ (root : String) (ds : List SegmentPattern) (f : SegmentPattern),
    ∃ l, glob1 entries root
      (ds.map Segment.directorySegment ++ [Segment.fileSegment f]) = .ok l := by
  induction n with
  | zero =>
    intro entries hsz
    match entries with
    | [] =>
      intro root ds f
      exact ⟨[], by rw [glob1]⟩
    | e :: es =>
      exfalso
      have h1 : 0 < sizeOf (e :: es) := by
        simp only [List.cons.sizeOf_spec]
        omega
      omega
  | succ n ih =>
    intro entries hsz root ds f
    match entries with
    | [] => exact ⟨[], by rw [glob1]⟩
    | e :: es =>
      have hszes : sizeOf es ≤ n := by
        have h1 : 1 ≤ sizeOf e := by
          rcases e with n2 | ⟨n2, ch⟩
          · simp only [FsEntry.file.sizeOf_spec]
            omega
          · simp only [FsEntry.dir.sizeOf_spec]
            omega
        simp only [List.cons.sizeOf_spec] at hsz
        omega
      rcases ds with _ | ⟨d, ds2⟩
      · rcases e with n2 | ⟨n2, ch⟩
        · obtain ⟨l2, hl2⟩ := ih es hszes root [] f
          simp only [List.map_nil, List.nil_append] at hl2 ⊢
          rcases hm : SegmentPattern.match f n2 with _ | _
          · exact ⟨l2, by rw [glob1, hm]; simpa using hl2⟩
          · exact ⟨(root ++ "/" ++ n2) :: l2, by rw [glob1, hm, if_pos rfl, hl2]⟩
        · obtain ⟨l2, hl2⟩ := ih es hszes root [] f
          simp only [List.map_nil, List.nil_append] at hl2 ⊢
          exact ⟨l2, by rw [glob1]; exact hl2⟩
      · simp only [List.map_cons, List.cons_append]
        rcases e with n2 | ⟨n2, ch⟩
        · obtain ⟨l2, hl2⟩ := ih es hszes root (d :: ds2) f
          simp only [List.map_cons, List.cons_append] at hl2
          by_cases hpat : d.pattern = "**"
          · have hhead : ∃ s1, (ds2.map Segment.directorySegment
                ++ [Segment.fileSegment f]).head? = some s1 := by
              rcases ds2 with _ | ⟨d2, ds3⟩
              · exact ⟨Segment.fileSegment f, rfl⟩
              · exact ⟨Segment.directorySegment d2, rfl⟩
            obtain ⟨s1, hs1⟩ := hhead
            rcases hm : s1.pat.match n2 with _ | _
            · refine ⟨l2, ?_⟩
              rw [glob1, hpat]
              simp [hs1, hm, hl2]
            · refine ⟨(root ++ "/" ++ n2) :: l2, ?_⟩
              rw [glob1, hpat]
              simp [hs1, hm, hl2]
          · refine ⟨l2, ?_⟩
            rw [glob1]
            rw [if_neg hpat]
            exact hl2
        · have hszch : sizeOf ch ≤ n := by
            simp only [List.cons.sizeOf_spec, FsEntry.dir.sizeOf_spec] at hsz
            omega
          obtain ⟨l2, hl2⟩ := ih es hszes root (d :: ds2) f
          simp only [List.map_cons, List.cons_append] at hl2
          rcases hm : SegmentPattern.match d n2 with _ | _
          · refine ⟨l2, ?_⟩
            rw [glob1, hm]
            simpa using hl2
          · obtain ⟨l1, hl1⟩ := ih ch hszch (root ++ "/" ++ n2) ds2 f
            refine ⟨l1 ++ l2, ?_⟩
            rw [glob1, hm, if_pos rfl, hl1, hl2]

end Eglob
namespace Eglob

theorem string_toList_eq_nil {s : String} : s.toList = [] ↔ s = "" := by
  cases s with
  | mk data =>
    constructor
    · intro h
      rw [show String.toList ⟨data⟩ = data from rfl] at h
      subst h
      rfl
    · intro h
      rw [h]
      rfl

theorem lang_seq_eps (b : Regex) (s : List Char) : Lang (.seq .eps b) s ↔ Lang b s := by
  rw [lang_seq_iff]
  constructor
  · rintro ⟨u, v, rfl, hu, hv⟩
    rw [lang_eps_iff] at hu
    subst hu
    simpa using hv
  · intro h
    exact ⟨[], s, rfl, lang_eps_iff.mpr rfl, h⟩

theorem iglobSegments_shape (pattern : String) (segs : List Segment)
    (h : iglobSegments pattern = .ok segs) :
    ∃ (ds : List SegmentPattern) (f : SegmentPattern),
      segs = ds.map Segment.directorySegment ++ [Segment.fileSegment f] := by
  simp only [iglobSegments] at h
  split at h
  · cases h
  · split at h
    · cases h
    · split at h
      · cases h
      · injection h with h2
        exact ⟨_, _, h2.symm⟩

theorem iglob_eq_of (pattern : String) (entries : List FsEntry) (cwd : String)
    (segs : List Segment) (l : List String)
    (h1 : iglobSegments pattern = .ok segs)
    (h2 : glob1 entries cwd segs = .ok l) :
    iglob pattern entries cwd = .ok l := by
  unfold iglob
  rw [h1]
  simp only []
  rw [h2]

end Eglob

namespace Eglob

set_option maxRecDepth 200000 in
/-- C1: refuted as stated.  For the tree {src/a.ts, src/nested/b.js,
src/c.txt} and pattern `**/*.{ts,js}`, the walk returns only
`root/src/a.ts`: the `**` directory segment descends exactly one level
(the recursive call drops it from the matcher sequence), so
`src/nested/b.js` at depth two is not found, contradicting the claimed
result set {src/a.ts, src/nested/b.js}. -/
theorem doublestar_descends_exactly_one_level :
    iglob "**/*.\x7bts,js\x7d"
      [.dir "src" [.file "a.ts", .dir "nested" [.file "b.js"], .file "c.txt"]]
      "root" = .ok ["root/src/a.ts"] := by
  have hg : glob_to_regex ['*', '.', '{', 't', 's', ',', 'j', 's', '}'] =
      .ok ['[', '^', '\\', '*', '\\', '?', '\\', '{', '\\', '}', '\\', '[', '\\', ']',
        '!', ',', '/', '\\', '\\', ']', '+', '\\', '.', '(', '?', ':', 't', 's', '|',
        'j', 's', ')'] := by
    simp [glob_to_regex, glob_loop, parse_inline,
      parse_subpattern, parse_subpattern_loop, parse_range, parse_range_loop,
      reEscape, reEscapeChar, isGlobChar, GLOB_CHARACTERS, RE_SPECIAL,
      starBlock, qmarkBlock, appendToLast, List.intercalate, List.intersperse]
  have hr : reParse ['[', '^', '\\', '*', '\\', '?', '\\', '{', '\\', '}', '\\', '[',
        '\\', ']', '!', ',', '/', '\\', '\\', ']', '+', '\\', '.', '(', '?', ':', 't',
        's', '|', 'j', 's', ')'] =
      .ok (.seq
            (.seq
              (.seq .eps
                (.seq
                  (.cls true
                    [ClassItem.single '*', ClassItem.single '?', ClassItem.single '{',
                     ClassItem.single '}', ClassItem.single '[', ClassItem.single ']',
                     ClassItem.single '!', ClassItem.single ',', ClassItem.single '/',
                     ClassItem.single '\\'])
                  (.star (.cls true
                    [ClassItem.single '*', ClassItem.single '?', ClassItem.single '{',
                     ClassItem.single '}', ClassItem.single '[', ClassItem.single ']',
                     ClassItem.single '!', ClassItem.single ',', ClassItem.single '/',
                     ClassItem.single '\\']))))
              (.lit '.'))
            (.alt (.seq (.seq .eps (.lit 't')) (.lit 's'))
              (.seq (.seq .eps (.lit 'j')) (.lit 's')))) := by
    simp [reParse, parseAlt, parseSeq, parse_class_loop, applyQuant, checkDouble,
      tryQuant, RE_SPECIAL]
  have hc2 : SegmentPattern.compile ⟨['*', '.', '{', 't', 's', ',', 'j', 's', '}']⟩ =
      .ok ⟨"*.\x7bts,js\x7d",
          .seq
            (.seq
              (.seq .eps
                (.seq
                  (.cls true
                    [ClassItem.single '*', ClassItem.single '?', ClassItem.single '{',
                     ClassItem.single '}', ClassItem.single '[', ClassItem.single ']',
                     ClassItem.single '!', ClassItem.single ',', ClassItem.single '/',
                     ClassItem.single '\\'])
                  (.star (.cls true
                    [ClassItem.single '*', ClassItem.single '?', ClassItem.single '{',
                     ClassItem.single '}', ClassItem.single '[', ClassItem.single ']',
                     ClassItem.single '!', ClassItem.single ',', ClassItem.single '/',
                     ClassItem.single '\\']))))
              (.lit '.'))
            (.alt (.seq (.seq .eps (.lit 't')) (.lit 's'))
              (.seq (.seq .eps (.lit 'j')) (.lit 's')))⟩ := by
    unfold SegmentPattern.compile
    rw [show (⟨['*', '.', '{', 't', 's', ',', 'j', 's', '}']⟩ : String).toList
      = ['*', '.', '{', 't', 's', ',', 'j', 's', '}'] from rfl]
    rw [hg]
    dsimp only
    rw [hr]
  have hc1 : SegmentPattern.compile ⟨['*', '*']⟩ =
      .ok ⟨"**", .seq .eps (.star .dot)⟩ := by
    simp [SegmentPattern.compile, glob_to_regex, glob_loop, parse_inline,
      reParse, parseAlt, parseSeq, applyQuant, checkDouble, tryQuant,
      reEscape, reEscapeChar, isGlobChar, GLOB_CHARACTERS, RE_SPECIAL, String.toList]
  have hm1 : SegmentPattern.match ⟨"**", .seq .eps (.star .dot)⟩ "src" = true := by
    decide
  have hm2 : SegmentPattern.match ⟨"*.\x7bts,js\x7d",
          .seq
            (.seq
              (.seq .eps
                (.seq
                  (.cls true
                    [ClassItem.single '*', ClassItem.single '?', ClassItem.single '{',
                     ClassItem.single '}', ClassItem.single '[', ClassItem.single ']',
                     ClassItem.single '!', ClassItem.single ',', ClassItem.single '/',
                     ClassItem.single '\\'])
                  (.star (.cls true
                    [ClassItem.single '*', ClassItem.single '?', ClassItem.single '{',
                     ClassItem.single '}', ClassItem.single '[', ClassItem.single ']',
                     ClassItem.single '!', ClassItem.single ',', ClassItem.single '/',
                     ClassItem.single '\\']))))
              (.lit '.'))
            (.alt (.seq (.seq .eps (.lit 't')) (.lit 's'))
              (.seq (.seq .eps (.lit 'j')) (.lit 's')))⟩ "a.ts" = true := by
    decide
  have hm3 : SegmentPattern.match ⟨"*.\x7bts,js\x7d",
          .seq
            (.seq
              (.seq .eps
                (.seq
                  (.cls true
                    [ClassItem.single '*', ClassItem.single '?', ClassItem.single '{',
                     ClassItem.single '}', ClassItem.single '[', ClassItem.single ']',
                     ClassItem.single '!', ClassItem.single ',', ClassItem.single '/',
                     ClassItem.single '\\'])
                  (.star (.cls true
                    [ClassItem.single '*', ClassItem.single '?', ClassItem.single '{',
                     ClassItem.single '}', ClassItem.single '[', ClassItem.single ']',
                     ClassItem.single '!', ClassItem.single ',', ClassItem.single '/',
                     ClassItem.single '\\']))))
              (.lit '.'))
            (.alt (.seq (.seq .eps (.lit 't')) (.lit 's'))
              (.seq (.seq .eps (.lit 'j')) (.lit 's')))⟩ "c.txt" = false := by
    decide
  have hseg : iglobSegments "**/*.\x7bts,js\x7d" =
      .ok [.directorySegment ⟨"**", .seq .eps (.star .dot)⟩,
        .fileSegment ⟨"*.\x7bts,js\x7d",
          .seq
            (.seq
              (.seq .eps
                (.seq
                  (.cls true
                    [ClassItem.single '*', ClassItem.single '?', ClassItem.single '{',
                     ClassItem.single '}', ClassItem.single '[', ClassItem.single ']',
                     ClassItem.single '!', ClassItem.single ',', ClassItem.single '/',
                     ClassItem.single '\\'])
                  (.star (.cls true
                    [ClassItem.single '*', ClassItem.single '?', ClassItem.single '{',
                     ClassItem.single '}', ClassItem.single '[', ClassItem.single ']',
                     ClassItem.single '!', ClassItem.single ',', ClassItem.single '/',
                     ClassItem.single '\\']))))
              (.lit '.'))
            (.alt (.seq (.seq .eps (.lit 't')) (.lit 's'))
              (.seq (.seq .eps (.lit 'j')) (.lit 's')))⟩] := by
    simp [iglobSegments, pyStrip, splitChar, String.toList, hc1, hc2,
      List.mapM.loop]
  have hwalk : glob1
      [.dir "src" [.file "a.ts", .dir "nested" [.file "b.js"], .file "c.txt"]]
      "root"
      [.directorySegment ⟨"**", .seq .eps (.star .dot)⟩,
        .fileSegment ⟨"*.\x7bts,js\x7d",
          .seq
            (.seq
              (.seq .eps
                (.seq
                  (.cls true
                    [ClassItem.single '*', ClassItem.single '?', ClassItem.single '{',
                     ClassItem.single '}', ClassItem.single '[', ClassItem.single ']',
                     ClassItem.single '!', ClassItem.single ',', ClassItem.single '/',
                     ClassItem.single '\\'])
                  (.star (.cls true
                    [ClassItem.single '*', ClassItem.single '?', ClassItem.single '{',
                     ClassItem.single '}', ClassItem.single '[', ClassItem.single ']',
                     ClassItem.single '!', ClassItem.single ',', ClassItem.single '/',
                     ClassItem.single '\\']))))
              (.lit '.'))
            (.alt (.seq (.seq .eps (.lit 't')) (.lit 's'))
              (.seq (.seq .eps (.lit 'j')) (.lit 's')))⟩] = .ok ["root/src/a.ts"] := by
    simp only [glob1, hm1, hm2, hm3, ite_true, ite_false, Bool.false_eq_true,
      eq_self_iff_true]
    simp
  exact iglob_eq_of _ _ _ _ _ hseg hwalk

set_option maxRecDepth 100000 in
/-- C2: refuted as stated.  The segment `a**b`, in which `**` is combined
with other characters, does not raise PatternSyntaxError: it compiles to a
matcher (each `*` becomes an independent non-empty run) and that matcher
accepts `axyb`. -/
theorem doublestar_combined_segment_compiles :
    segMatch "a**b" "axyb" = some true := by
  simp [segMatch, SegmentPattern.compile, glob_to_regex, glob_loop, parse_inline,
    parse_subpattern, parse_subpattern_loop, parse_range, parse_range_loop,
    reParse, parseAlt, parseSeq, parse_class_loop, applyQuant, checkDouble, tryQuant,
    reEscape, reEscapeChar, isGlobChar, GLOB_CHARACTERS, RE_SPECIAL,
    SegmentPattern.match, Regex.fullmatch, Regex.deriv, Regex.nullable, clsTest,
    ClassItem.test, starBlock, qmarkBlock, appendToLast, Except.toOption, Option.map,
    String.toList, List.intercalate, List.intersperse]

/-- C4 (amended): an unterminated `{` does NOT fail — parse_subpattern
recovers at end of input and the segment compiles to a literal matcher
that accepts its own text; an unterminated `[` does fail, but with the
host regex engine's error (or, for the bare segment `[`, with an
IndexError from `pattern_block[1]`), neither of which is a
PatternSyntaxError. -/
theorem unterminated_group_and_range_behaviour (t : List Char)
    (ht : ∀ c ∈ t, ¬(isGlobChar c = true)) (htne : t ≠ []) :
    (∃ sp : SegmentPattern, SegmentPattern.compile ⟨'{' :: t⟩ = .ok sp ∧
      sp.match ⟨'{' :: t⟩ = true) ∧
    (∃ e, SegmentPattern.compile ⟨'[' :: t⟩ = .error (.reError e)) ∧
    SegmentPattern.compile "[" = .error .indexError := by
  refine ⟨⟨⟨⟨'{' :: t⟩, litFold (.seq .eps (.lit '{')) t⟩,
    compile_brace_unterminated t ht htne, ?_⟩,
    compile_range_unterminated t ht htne, ?_⟩
  · have hl : Lang (litFold (.seq .eps (.lit '{')) t) ('{' :: t) := by
      rw [litFold_lang]
      refine ⟨['{'], ?_, rfl⟩
      rw [lang_seq_iff]
      exact ⟨[], ['{'], rfl, lang_eps_iff.mpr rfl, lang_lit_iff.mpr rfl⟩
    have hf : Regex.fullmatch (litFold (.seq .eps (.lit '{')) t) ('{' :: t) = true := by
      rw [fullmatch_iff]
      exact hl
    simp only [SegmentPattern.match]
    rw [show (⟨'{' :: t⟩ : String).toList = '{' :: t from rfl, hf]
    simp
  · simp [SegmentPattern.compile, glob_to_regex, glob_loop, parse_range,
      parse_range_loop, String.toList, isGlobChar, GLOB_CHARACTERS]

/-- Witness for C4 at t = "ab". -/
theorem unterminated_witness :
    (∃ sp : SegmentPattern, SegmentPattern.compile ⟨'{' :: ['a', 'b']⟩ = .ok sp ∧
      sp.match ⟨'{' :: ['a', 'b']⟩ = true) ∧
    (∃ e, SegmentPattern.compile ⟨'[' :: ['a', 'b']⟩ = .error (.reError e)) ∧
    SegmentPattern.compile "[" = .error .indexError :=
  unterminated_group_and_range_behaviour ['a', 'b'] (by decide) (by decide)

set_option maxRecDepth 100000 in
/-- Counterexample to C4 as stated: the segment `{ab` contains a `{` with
no matching `}`, yet compilation succeeds and the resulting matcher
accepts the name `{ab`. -/
theorem unterminated_brace_matches_literal : segMatch "\x7bab" "\x7bab" = some true := by
  simp [segMatch, SegmentPattern.compile, glob_to_regex, glob_loop, parse_inline,
    parse_subpattern, parse_subpattern_loop, parse_range, parse_range_loop,
    reParse, parseAlt, parseSeq, parse_class_loop, applyQuant, checkDouble, tryQuant,
    reEscape, reEscapeChar, isGlobChar, GLOB_CHARACTERS, RE_SPECIAL,
    SegmentPattern.match, Regex.fullmatch, Regex.deriv, Regex.nullable, clsTest,
    ClassItem.test, starBlock, qmarkBlock, appendToLast, Except.toOption, Option.map,
    String.toList, List.intercalate, List.intersperse]

set_option maxRecDepth 100000 in
/-- C5: refuted.  Segment compilation can fail with exceptions other than
PatternSyntaxError: the bare segment `[` makes `parse_range` read
`pattern_block[1]` of a one-element list (an IndexError), and `[a`
produces the fragment `[a` which the host regex engine rejects
("unterminated character set"), an `re.error`. -/
theorem range_parser_host_errors :
    SegmentPattern.compile "[" = .error .indexError ∧
    SegmentPattern.compile "[a" = .error (.reError .unterminatedClass) := by
  constructor
  · simp [SegmentPattern.compile, glob_to_regex, glob_loop, parse_range,
      parse_range_loop, String.toList, isGlobChar, GLOB_CHARACTERS]
  · simp [SegmentPattern.compile, glob_to_regex, glob_loop, parse_range,
      parse_range_loop, String.toList, isGlobChar, GLOB_CHARACTERS, reParse,
      parseAlt, parseSeq, parse_class_loop]

/-- C6: confirmed.  When the head matcher of the remaining sequence is a
directory segment whose original text is exactly `**`, any FILE entry of
the current listing whose name matches the NEXT matcher is yielded
directly: `**` consumes zero directory levels. -/
theorem doublestar_zero_level_file (entries : List FsEntry) (root name : String)
    (m0 : SegmentPattern) (s1 : Segment) (rest : List Segment) (l : List String)
    (hpat : m0.pattern = "**") (hmem : FsEntry.file name ∈ entries)
    (hmatch : s1.pat.match name = true)
    (hok : glob1 entries root (.directorySegment m0 :: s1 :: rest) = .ok l) :
    (root ++ "/" ++ name) ∈ l :=
  glob1_zero_level entries root name m0 s1 rest l hpat hmem hmatch hok

/-- Witness for C6: a `.py` file directly inside the root is yielded. -/
theorem doublestar_zero_level_witness :
    ("r" ++ "/" ++ "x.py") ∈ (["r/x.py"] : List String) :=
  doublestar_zero_level_file [FsEntry.file "x.py"] "r" "x.py"
    ⟨"**", .star .dot⟩ (Segment.fileSegment ⟨"p", .star .dot⟩) [] ["r/x.py"]
    rfl (by simp) (by decide)
    (by simp [glob1, Segment.pat, SegmentPattern.match, Regex.fullmatch,
      Regex.deriv, Regex.nullable, String.toList])

/-- C7: confirmed.  (1) With a file segment (the last matcher) a path is
yielded iff it is the full path of a FILE entry of the listing whose name
matches — directory entries are never descended into; (2) with a
directory segment every yielded path comes either from recursing into a
matching DIRECTORY entry with the remaining matchers, or from the `**`
zero-level file case against the next matcher. -/
theorem segment_role_semantics :
    (∀ (entries : List FsEntry) (root : String) (m : SegmentPattern)
        (l : List String) (p : String),
      glob1 entries root [.fileSegment m] = .ok l →
      (p ∈ l ↔ ∃ n, FsEntry.file n ∈ entries ∧ m.match n = true ∧
        p = root ++ "/" ++ n)) ∧
    (∀ (entries : List FsEntry) (root : String) (m0 : SegmentPattern)
        (s1 : Segment) (rest : List Segment) (l : List String) (p : String),
      glob1 entries root (.directorySegment m0 :: s1 :: rest) = .ok l → p ∈ l →
      (∃ n ch l1, FsEntry.dir n ch ∈ entries ∧ m0.match n = true ∧
        glob1 ch (root ++ "/" ++ n) (s1 :: rest) = .ok l1 ∧ p ∈ l1) ∨
      (∃ n, FsEntry.file n ∈ entries ∧ m0.pattern = "**" ∧
        s1.pat.match n = true ∧ p = root ++ "/" ++ n)) :=
  ⟨glob1_file_segment_iff, glob1_dir_segment_cases⟩

/-- C8: confirmed.  The matcher compiled from the one-character segment
`*` accepts exactly the non-empty strings containing no glob-control
character; in particular it rejects the empty string. -/
theorem star_matches_nonempty_nonglob (s : String) :
    segMatch "*" s = some true ↔
      (s ≠ "" ∧ ∀ c ∈ s.toList, ¬(c ∈ GLOB_CHARACTERS)) := by
  have hcls : ∀ c : Char, clsTest true
      [ClassItem.single '*', ClassItem.single '?', ClassItem.single '{',
       ClassItem.single '}', ClassItem.single '[', ClassItem.single ']',
       ClassItem.single '!', ClassItem.single ',', ClassItem.single '/',
       ClassItem.single '\\'] c = true ↔ ¬(c ∈ GLOB_CHARACTERS) := by
    intro c
    simp [clsTest, ClassItem.test, GLOB_CHARACTERS, not_or]
  have hc : SegmentPattern.compile "*" = .ok ⟨"*",
      .seq .eps (.seq
        (.cls true
          [ClassItem.single '*', ClassItem.single '?', ClassItem.single '{',
           ClassItem.single '}', ClassItem.single '[', ClassItem.single ']',
           ClassItem.single '!', ClassItem.single ',', ClassItem.single '/',
           ClassItem.single '\\'])
        (.star (.cls true
          [ClassItem.single '*', ClassItem.single '?', ClassItem.single '{',
           ClassItem.single '}', ClassItem.single '[', ClassItem.single ']',
           ClassItem.single '!', ClassItem.single ',', ClassItem.single '/',
           ClassItem.single '\\'])))⟩ := by
    simp [SegmentPattern.compile, glob_to_regex, glob_loop, parse_inline,
      reParse, parseAlt, parseSeq, parse_class_loop, applyQuant, checkDouble,
      tryQuant, reEscape, reEscapeChar, isGlobChar, GLOB_CHARACTERS, RE_SPECIAL,
      starBlock, qmarkBlock, String.toList]
  have hP : ∀ u : List Char,
      Lang (.seq
        (.cls true
          [ClassItem.single '*', ClassItem.single '?', ClassItem.single '{',
           ClassItem.single '}', ClassItem.single '[', ClassItem.single ']',
           ClassItem.single '!', ClassItem.single ',', ClassItem.single '/',
           ClassItem.single '\\'])
        (.star (.cls true
          [ClassItem.single '*', ClassItem.single '?', ClassItem.single '{',
           ClassItem.single '}', ClassItem.single '[', ClassItem.single ']',
           ClassItem.single '!', ClassItem.single ',', ClassItem.single '/',
           ClassItem.single '\\']))) u ↔
      (u ≠ [] ∧ ∀ c ∈ u, ¬(c ∈ GLOB_CHARACTERS)) := by
    intro u
    rw [plus_cls_lang]
    constructor
    · rintro ⟨hne, hall⟩
      exact ⟨hne, fun c hcm => (hcls c).mp (hall c hcm)⟩
    · rintro ⟨hne, hall⟩
      exact ⟨hne, fun c hcm => (hcls c).mpr (hall c hcm)⟩
  rw [segMatch, hc]
  show some (SegmentPattern.match _ s) = some true ↔ _
  rw [Option.some_inj]
  rw [match_eq_or]
  show (Lang (.seq .eps _) s.toList ∨ _) ↔ _
  constructor
  · rintro (h | ⟨u, hu, h⟩)
    · rw [lang_seq_eps, hP] at h
      obtain ⟨hne, hall⟩ := h
      refine ⟨?_, hall⟩
      intro h0
      exact hne (string_toList_eq_nil.mpr h0)
    · rw [lang_seq_eps, hP] at h
      obtain ⟨hne, hall⟩ := h
      constructor
      · intro h0
        have h2 : u ++ ['\n'] = [] := by
          rw [← hu, h0]
          rfl
        simp at h2
      · intro c hcm
        rw [hu] at hcm
        rcases List.mem_append.mp hcm with hcm2 | hcm2
        · exact hall c hcm2
        · have : c = '\n' := by simpa using hcm2
          subst this
          decide
  · rintro ⟨hne, hall⟩
    left
    rw [lang_seq_eps, hP]
    refine ⟨?_, hall⟩
    intro h0
    exact hne (string_toList_eq_nil.mp h0)

/-- C9: confirmed.  A bare `,`, `!`, `}` or `]` reached outside any group
or range makes segment compilation fail with the "invalid segment
characters" PatternSyntaxError carrying the rest of the text; no matcher
is returned. -/
theorem bare_control_character_rejected (l r : List Char) (c : Char)
    (hc : c ∈ [',', '!', '}', ']'])
    (hl : ∀ ch ∈ l, ¬(isGlobChar ch = true)) :
    SegmentPattern.compile ⟨l ++ c :: r⟩ =
      .error (.invalidSegmentCharacters (c :: r)) :=
  compile_c9 l r c hc hl

/-- Witness for C9 at the segment `a,b`. -/
theorem bare_control_character_witness :
    SegmentPattern.compile ⟨['a'] ++ ',' :: ['b']⟩ =
      .error (.invalidSegmentCharacters (',' :: ['b'])) :=
  bare_control_character_rejected ['a'] ['b'] ',' (by decide) (by decide)

/-- C10: confirmed.  Whenever `iglob` builds a matcher sequence it is
non-empty, ends in a FileSegment preceded only by DirectorySegments, and
the walk with such a sequence never hits an out-of-range access: `glob1`
returns a result list for every directory tree. -/
theorem iglob_segment_shape_invariant (pattern : String) (segs : List Segment)
    (h : iglobSegments pattern = .ok segs) :
    (∃ (ds : List SegmentPattern) (f : SegmentPattern),
      segs = ds.map Segment.directorySegment ++ [Segment.fileSegment f]) ∧
    (∀ (entries : List FsEntry) (cwd : String),
      ∃ l, glob1 entries cwd segs = .ok l) := by
  obtain ⟨ds, f, rfl⟩ := iglobSegments_shape pattern segs h
  refine ⟨⟨ds, f, rfl⟩, ?_⟩
  intro entries cwd
  exact glob1_shape_ok (sizeOf entries) entries (le_refl _) cwd ds f

set_option maxRecDepth 100000 in
/-- Witness for C10 at the pattern `a/b`. -/
theorem iglob_segment_shape_witness :
    (∃ (ds : List SegmentPattern) (f : SegmentPattern),
      [Segment.directorySegment ⟨"a", .seq .eps (.lit 'a')⟩,
        Segment.fileSegment ⟨"b", .seq .eps (.lit 'b')⟩]
      = ds.map Segment.directorySegment ++ [Segment.fileSegment f]) ∧
    (∀ (entries : List FsEntry) (cwd : String),
      ∃ l, glob1 entries cwd [Segment.directorySegment ⟨"a", .seq .eps (.lit 'a')⟩,
        Segment.fileSegment ⟨"b", .seq .eps (.lit 'b')⟩] = .ok l) :=
  iglob_segment_shape_invariant "a/b" _
    (by simp [iglobSegments, pyStrip, splitChar, SegmentPattern.compile,
      glob_to_regex, glob_loop, parse_inline, reParse, parseAlt, parseSeq,
      applyQuant, checkDouble, tryQuant, reEscape, reEscapeChar, isGlobChar,
      GLOB_CHARACTERS, RE_SPECIAL, String.toList, List.mapM.loop])

end Eglob
